import Mathlib

/-!
# Verification of the SlotMachine core (animation + combination)

Shallow embedding of `src/animation.hpp`, `src/animation.cpp`,
`src/combination.hpp`, `src/combination.cpp` and `src/symbol.hpp`.

Conventions:
* `float` values are modelled as exact real numbers (`ℝ`).  The code
  manipulates the IEEE special values NaN and ±∞ explicitly (as "no root" /
  "never" sentinels); those are modelled by the inductive `Xf` below, and by
  `WithTop ℝ` where only `+∞` can occur (extremum hit times, the relaxed
  `m_max_speed` that `ReelMotion::stop_in` sets to `infinity`).
* machine integers (`uint32_t`) in the combination resolver are modelled as
  `ℕ` (all quantities there are tiny, far from any wrap-around).
* mutation is modelled by explicit state passing; the in-place loops of the
  combination resolver are translated to `Id.run do` blocks or structural
  recursions mirroring the C++ control flow.
-/

/-- A `float` result that may be NaN or ±infinity, as used by `quad_equation`
(NaN = "no such root", first root = +∞ marks "infinitely many solutions")
and by `Motion::time_to_speed` (+∞ = "never"). -/
inductive Xf where
  | nan : Xf
  | inf : Xf
  | ninf : Xf
  | fin : ℝ → Xf

noncomputable section

open Classical

/-- Float division of finite operands: ordinary division when the divisor is
non-zero, otherwise the IEEE results for division by (positive) zero. -/
noncomputable def fdivF (num den : ℝ) : Xf :=
  if den = 0 then
    if num = 0 then Xf.nan else if 0 < num then Xf.inf else Xf.ninf
  else Xf.fin (num / den)

/-- `quad_equation` from `animation.cpp`: solves `a x² + b x + c = 0`.
Returns the pair `roots` initialised to `(NAN, NAN)`; the degenerate
all-zero case stores `+∞` ("every value solves it") in the first root. -/
noncomputable def quad_equation (a b c : ℝ) : Xf × Xf :=
  if a = 0 then
    if b = 0 then
      if c = 0 then (Xf.inf, Xf.nan) else (Xf.nan, Xf.nan)
    else (Xf.fin (-c / b), Xf.nan)
  else
    let d := b * b - 4 * a * c
    if 0 < d then
      (Xf.fin ((-b + Real.sqrt d) / (2 * a)), Xf.fin ((-b - Real.sqrt d) / (2 * a)))
    else if d = 0 then (Xf.fin (-b / (2 * a)), Xf.nan)
    else (Xf.nan, Xf.nan)

/-- `MotionType` from `animation.hpp` (the `number` count sentinel is not a
motion order and is omitted). -/
inductive MotionType where
  | stationary : MotionType
  | uniform : MotionType
  | accelerated : MotionType
  | jerked : MotionType
deriving DecidableEq

/-- Numeric value of a `MotionType`, as in the C++ `uint8_t` cast used by
`operator>=`. -/
def MotionType.ord : MotionType → ℕ
  | .stationary => 0
  | .uniform => 1
  | .accelerated => 2
  | .jerked => 3

/-- The component store of `Motion<MT>`.  The C++ class physically stores only
the first `MT+1` components; the embedding keeps all four fields but the
order-aware getters/setters below mask the ones above the declared order
(they read as `0` and are unsettable), exactly as the `if constexpr` code. -/
structure MState where
  position : ℝ
  speed : ℝ
  acceleration : ℝ
  jerk : ℝ

namespace Motion

def get_position (m : MState) : ℝ := m.position

def set_positon (m : MState) (p : ℝ) : MState := { m with position := p }

def get_speed (mt : MotionType) (m : MState) : ℝ :=
  if MotionType.uniform.ord ≤ mt.ord then m.speed else 0

def set_speed (mt : MotionType) (m : MState) (s : ℝ) : MState :=
  if MotionType.uniform.ord ≤ mt.ord then { m with speed := s } else m

def get_acceleration (mt : MotionType) (m : MState) : ℝ :=
  if MotionType.accelerated.ord ≤ mt.ord then m.acceleration else 0

def set_acceleration (mt : MotionType) (m : MState) (a : ℝ) : MState :=
  if MotionType.accelerated.ord ≤ mt.ord then { m with acceleration := a } else m

def get_jerk (mt : MotionType) (m : MState) : ℝ :=
  if MotionType.jerked.ord ≤ mt.ord then m.jerk else 0

def set_jerk (mt : MotionType) (m : MState) (j : ℝ) : MState :=
  if MotionType.jerked.ord ≤ mt.ord then { m with jerk := j } else m

/-- `Motion<MT>::advance(dt)`: the exact polynomial step.  The C++ code reads
`j, a, v, s` first and then writes position, speed, acceleration through the
order-masked setters. -/
def advance (mt : MotionType) (m : MState) (dt : ℝ) : MState :=
  let j := get_jerk mt m
  let a := get_acceleration mt m
  let v := get_speed mt m
  let s := get_position m
  set_acceleration mt
    (set_speed mt (set_positon m (s + (v + (a / 2 + j * dt / 6) * dt) * dt))
      (v + (a + j * dt / 2) * dt))
    (a + j * dt)

/-- The speed-vs-time polynomial of a motion state (speed of `advance` after
time `τ`), built from the order-masked components. -/
def speed_poly (mt : MotionType) (m : MState) (τ : ℝ) : ℝ :=
  get_speed mt m + get_acceleration mt m * τ + get_jerk mt m * τ ^ 2 / 2

/-- `Motion<MT>::time_to_speed(v1, second_res)`, returning the pair
(primary result, `*second_res`).  `second_res` is initialised to `+∞` and
overwritten only in the two-non-negative-roots branch. -/
noncomputable def time_to_speed (mt : MotionType) (m : MState) (v1 : ℝ) : Xf × Xf :=
  let j := get_jerk mt m
  let a := get_acceleration mt m
  let v0 := get_speed mt m
  match mt with
  | .stationary => (if v1 = 0 then Xf.fin 0 else Xf.inf, Xf.inf)
  | .uniform => (if v1 = v0 then Xf.fin 0 else Xf.inf, Xf.inf)
  | .accelerated =>
    -- `float t = (v1 - v0) / a; if (t < 0.f) return infinity; return t;`
    (match fdivF (v1 - v0) a with
     | Xf.fin t => if t < 0 then Xf.inf else Xf.fin t
     | Xf.ninf => Xf.inf
     | Xf.inf => Xf.inf
     | Xf.nan => Xf.nan, Xf.inf)
  | .jerked =>
    match quad_equation (j / 2) a (v0 - v1) with
    | (Xf.nan, _) => (Xf.inf, Xf.inf)
    | (Xf.fin x, Xf.nan) => if x < 0 then (Xf.inf, Xf.inf) else (Xf.fin x, Xf.inf)
    -- an infinite first root (`a=b=c=0` marker) fails `roots.first < 0.f`
    -- and is returned as is: indistinguishable from the "never" sentinel
    | (Xf.inf, Xf.nan) => (Xf.inf, Xf.inf)
    | (Xf.ninf, Xf.nan) => (Xf.inf, Xf.inf)
    | (Xf.fin x, Xf.fin y) =>
      let min_root := min x y
      let max_root := max x y
      if max_root < 0 then (Xf.inf, Xf.inf)
      else if min_root < 0 then (Xf.fin max_root, Xf.inf)
      else (Xf.fin min_root, Xf.fin max_root)
    -- `quad_equation` only ever puts a finite value or NaN in the second
    -- slot, and pairs a finite second with a finite first; unreachable:
    | (_, _) => (Xf.inf, Xf.inf)

end Motion

/-- `SpeedLimitedMotion<MotionType::jerked>` (the only instantiation the
program creates, through `ReelMotion`).  `m_max_speed` is modelled in
`WithTop ℝ` because `ReelMotion::stop_in` stores the float `infinity`
there; `m_min_speed` only ever holds finite values. -/
structure SpeedLimitedMotion where
  position : ℝ
  speed : ℝ
  acceleration : ℝ
  jerk : ℝ
  m_max_speed : WithTop ℝ
  m_min_speed : ℝ

namespace SpeedLimitedMotion

/-- The underlying `Motion<jerked>` component store. -/
def toM (m : SpeedLimitedMotion) : MState :=
  ⟨m.position, m.speed, m.acceleration, m.jerk⟩

/-- `SpeedLimitedMotion::uniform_advance(dt)`: keeps speed the same,
position advances linearly, acceleration still accumulates jerk. -/
def uniform_advance (m : SpeedLimitedMotion) (dt : ℝ) : SpeedLimitedMotion :=
  { m with
    position := m.position + m.speed * dt
    acceleration := m.acceleration + m.jerk * dt }

/-- `Motion<jerked>::advance(dt)` acting on the full bounded state (the base
class call `Motion<MT>::advance(t_spent)` inside the bounded integrator). -/
def jerk_advance (m : SpeedLimitedMotion) (dt : ℝ) : SpeedLimitedMotion :=
  { m with
    position := m.position + (m.speed + (m.acceleration / 2 + m.jerk * dt / 6) * dt) * dt
    speed := m.speed + (m.acceleration + m.jerk * dt / 2) * dt
    acceleration := m.acceleration + m.jerk * dt }

/-- The first/second results of `time_to_speed` as hit times.  The jerked
branch only produces a non-negative finite value or `+∞` in either slot
(`Xf.nan`/`Xf.ninf` cannot occur there); `+∞` means "never". -/
def xfTime : Xf → WithTop ℝ
  | Xf.fin x => (x : WithTop ℝ)
  | _ => ⊤

/-- Both hit times for one speed bound.  For the finite bound this is
`time_to_speed(bound, &second)`.  When the bound is the float `+∞` (only
`m_max_speed` after `stop_in`), the quadratic degenerates (`c = -∞`) and the
solver never reports a finite crossing time: both results are `+∞`. -/
def times_to_bound (m : SpeedLimitedMotion) (b : WithTop ℝ) : WithTop ℝ × WithTop ℝ :=
  match b with
  | ⊤ => (⊤, ⊤)
  | (v : ℝ) =>
    let r := Motion.time_to_speed MotionType.jerked m.toM v
    (xfTime r.1, xfTime r.2)

/-- One entry of the `extremums` array: a boundary-hit time paired with the
bound value that is reached there. -/
structure ExtremumHit where
  time : WithTop ℝ
  value : WithTop ℝ

/-- The body of one iteration of the integrator loop, from computing
`is_exceeded` / `naturaly_limited` / `will_reduce` to producing the advanced
state.  `t_spent` is the sub-interval length, `prev` the previous entry's
value (`none` when `i = 0`), and `dosnap` tells whether the sub-interval ends
at the extremum (`!is_time_up`), in which case the speed is forced to the
exact bound value. -/
def step (m : SpeedLimitedMotion) (t_spent : ℝ) (val : WithTop ℝ)
    (prev : Option (WithTop ℝ)) (dosnap : Bool) : SpeedLimitedMotion :=
  let is_exceeded :=
    if val = m.m_max_speed then m.m_max_speed ≤ (m.speed : WithTop ℝ)
    else m.speed ≤ m.m_min_speed
  let naturaly_limited := if val = m.m_max_speed then 0 < m.jerk else m.jerk < 0
  let will_reduce := prev = some val ∧ naturaly_limited
  if is_exceeded ∧ ¬will_reduce then m.uniform_advance t_spent
  else
    let m2 := m.jerk_advance t_spent
    if dosnap then { m2 with speed := val.untop' m2.speed } else m2

/-- The integrator loop over the sorted extremum array: `prev_t` is the time
already consumed, `prev` the previous entry's value.  The loop stops at the
first infinite time; any remaining time is integrated uniformly (the clamped
right branch of the parabola). -/
def walk (dt : ℝ) : SpeedLimitedMotion → ℝ → Option (WithTop ℝ) →
    List ExtremumHit → SpeedLimitedMotion
  | m, prev_t, _, [] => if prev_t < dt then m.uniform_advance (dt - prev_t) else m
  | m, prev_t, prev, h :: rest =>
    match h.time with
    | ⊤ => if prev_t < dt then m.uniform_advance (dt - prev_t) else m
    | (τ : ℝ) =>
      if dt ≤ τ then step m (dt - prev_t) h.value prev false
      else walk dt (step m (τ - prev_t) h.value prev true) τ (some h.value) rest

/-- `SpeedLimitedMotion::advance(dt)`: collect the four candidate boundary-hit
times, sort them by time (ties are unobservable: two hits at one time force
equal bound values), and walk the sub-intervals. -/
def advance (m : SpeedLimitedMotion) (dt : ℝ) : SpeedLimitedMotion :=
  let tmax := m.times_to_bound m.m_max_speed
  let tmin := m.times_to_bound m.m_min_speed
  let extremums : List ExtremumHit :=
    [⟨tmax.1, m.m_max_speed⟩, ⟨tmax.2, m.m_max_speed⟩,
     ⟨tmin.1, (m.m_min_speed : WithTop ℝ)⟩, ⟨tmin.2, (m.m_min_speed : WithTop ℝ)⟩]
  walk dt m 0 none (extremums.insertionSort fun x y => x.time ≤ y.time)

end SpeedLimitedMotion

/-- `AcceleratedMotion::nccry_acc_to_speed(speed, time)`: the constant
acceleration needed to reach `speed` after `time` (asserts `time ≠ 0`). -/
def AcceleratedMotion.nccry_acc_to_speed (m : MState) (speed time : ℝ) : ℝ :=
  (speed - m.speed) / time

/-- `std::round`: nearest integer, halfway cases away from zero. -/
def cround (x : ℝ) : ℝ :=
  if x < 0 then -((⌊-x + 1 / 2⌋ : ℤ) : ℝ) else ((⌊x + 1 / 2⌋ : ℤ) : ℝ)

/-- `ReelMotion::State`. -/
inductive ReelState where
  | rest : ReelState
  | had_impact : ReelState
  | moving : ReelState
deriving DecidableEq

/-- `ReelMotion`: a speed-limited jerked motion on a circular strip of
`m_length` symbols, plus the user-preferred speed-limit proxies. -/
structure ReelMotion extends SpeedLimitedMotion where
  m_state : ReelState
  m_length : ℝ
  m_min_speed_proxy : ℝ
  m_max_speed_proxy : ℝ

namespace ReelMotion

/-- `ReelMotion(reel_length)`: zero motion components and bounds (the
`Motion` component array value-initialises to zero), at rest. -/
def mk0 (reel_length : ℝ) : ReelMotion :=
  ⟨⟨0, 0, 0, 0, ((0 : ℝ) : WithTop ℝ), 0⟩, ReelState.rest, reel_length, 0, 0⟩

/-- The unconditional wrap `position -= floor(position / m_length) * m_length`
applied at the end of every `ReelMotion::advance`. -/
def position_wrap (r : ReelMotion) : ReelMotion :=
  { r with position := r.position - ((⌊r.position / r.m_length⌋ : ℤ) : ℝ) * r.m_length }

/-- `ReelMotion::stop_in(end_position, t)` (caller contract `t ≠ 0`,
`end_position ≤ m_length`): plans the landing jerk/acceleration pair, relaxes
the speed corridor to `[0, +∞)` and marks the impact. -/
def stop_in (r : ReelMotion) (end_position t : ℝ) : ReelMotion :=
  let v := r.speed
  let s0 := r.position
  let s1 := end_position
  let l := r.m_length
  let k : ℝ := ((⌈(v * t / 3 + s0 - s1) / l⌉ : ℤ) : ℝ)
  let j := 12 * (s0 - s1 - k * l + v * t / 2) / (t * t * t)
  let a := -v / t - j * t / 2
  { r with
    jerk := j
    acceleration := a
    m_min_speed := 0
    m_max_speed := ⊤
    m_state := ReelState.had_impact }

/-- The number of whole reel turns `stop_in` plans (`k` in the source). -/
def stop_in_k (r : ReelMotion) (end_position t : ℝ) : ℤ :=
  ⌈(r.speed * t / 3 + r.position - end_position) / r.m_length⌉

/-- `ReelMotion::go_full_speed_in(time)`: promote the max-speed proxy to the
active bound and set the constant acceleration that reaches it at `time`. -/
def go_full_speed_in (r : ReelMotion) (time : ℝ) : ReelMotion :=
  let new_max := r.m_max_speed_proxy
  let accm : MState := ⟨r.position, r.speed, r.acceleration, 0⟩
  let new_acc := AcceleratedMotion.nccry_acc_to_speed accm new_max time
  { r with
    m_max_speed := (new_max : WithTop ℝ)
    acceleration := new_acc
    m_state := ReelState.had_impact }

/-- `ReelMotion::slow_to_minimal_in(time)`: promote the min-speed proxy to the
active bound and set the constant acceleration that reaches it at `time`.
(The source does not touch `m_state` here.) -/
def slow_to_minimal_in (r : ReelMotion) (time : ℝ) : ReelMotion :=
  let new_min := r.m_min_speed_proxy
  let accm : MState := ⟨r.position, r.speed, r.acceleration, 0⟩
  let new_acc := AcceleratedMotion.nccry_acc_to_speed accm new_min time
  { r with
    m_min_speed := new_min
    acceleration := new_acc }

/-- `ReelMotion::set_min_speed(speed)`: only the proxy is written. -/
def set_min_speed (r : ReelMotion) (speed : ℝ) : ReelMotion :=
  { r with m_min_speed_proxy := speed }

/-- `ReelMotion::set_max_speed(speed)`: only the proxy is written. -/
def set_max_speed (r : ReelMotion) (speed : ℝ) : ReelMotion :=
  { r with m_max_speed_proxy := speed }

/-- `ReelMotion::full_stop()`: zero the derivatives exactly and round the
position to the nearest whole symbol. -/
def full_stop (r : ReelMotion) : ReelMotion :=
  { r with
    speed := 0
    acceleration := 0
    jerk := 0
    position := cround r.position
    m_state := ReelState.rest }

/-- Rebuild a `ReelMotion` around an advanced bounded-motion state. -/
def withMotion (r : ReelMotion) (m : SpeedLimitedMotion) : ReelMotion :=
  { r with toSpeedLimitedMotion := m }

/-- `ReelMotion::advance(dt)`: the state-machine tick.  No-op when `dt = 0`;
otherwise integrate (clipping the step at the predicted stop time while
moving) and wrap the position. -/
def advance (r : ReelMotion) (dt : ℝ) : ReelMotion :=
  if dt = 0 then r
  else
    let r' :=
      match r.m_state with
      | ReelState.had_impact =>
        { r.withMotion (r.toSpeedLimitedMotion.advance dt) with
          m_state := ReelState.moving }
      | ReelState.moving =>
        -- `float stop_time = time_to_speed(0.f); if (stop_time <= dt) ...`
        (match (Motion.time_to_speed MotionType.jerked r.toSpeedLimitedMotion.toM 0).1 with
         | Xf.fin stop_time =>
           if stop_time ≤ dt then
             (r.withMotion (r.toSpeedLimitedMotion.advance stop_time)).full_stop
           else
             let r2 := r.withMotion (r.toSpeedLimitedMotion.advance dt)
             if r2.m_max_speed ≤ ((0 : ℝ) : WithTop ℝ) then r2.full_stop else r2
         | _ =>
           -- an infinite stop time never satisfies `stop_time <= dt`
           let r2 := r.withMotion (r.toSpeedLimitedMotion.advance dt)
           if r2.m_max_speed ≤ ((0 : ℝ) : WithTop ℝ) then r2.full_stop else r2)
      | ReelState.rest => r
    r'.position_wrap

end ReelMotion

namespace SpeedLimitedMotion

/-- The speed-vs-time polynomial of the bounded state's jerked motion. -/
def spoly (m : SpeedLimitedMotion) (τ : ℝ) : ℝ :=
  m.speed + m.acceleration * τ + m.jerk * τ ^ 2 / 2

/-- The acceleration-vs-time polynomial of the bounded state. -/
def apoly (m : SpeedLimitedMotion) (τ : ℝ) : ℝ := m.acceleration + m.jerk * τ

instance : IsTotal ExtremumHit fun x y => x.time ≤ y.time :=
  ⟨fun a b => le_total a.time b.time⟩

instance : IsTrans ExtremumHit fun x y => x.time ≤ y.time :=
  ⟨fun _ _ _ h1 h2 => le_trans h1 h2⟩

end SpeedLimitedMotion

/-- The root-reporting contract of `time_to_speed` (the specified behaviour):
the primary result is the infinity sentinel exactly when the speed polynomial
never takes the value `v1` at a non-negative time, a finite primary result is
the smallest non-negative such time, the second output is finite only when it
is the largest non-negative such time with the primary strictly below it, and
when the polynomial has exactly two roots, both non-negative, the second
output is finite. -/
def TimeToSpeedSpec (mt : MotionType) (m : MState) (v1 : ℝ) : Prop :=
  ((Motion.time_to_speed mt m v1).1 = Xf.inf ∨
    ∃ τ, (Motion.time_to_speed mt m v1).1 = Xf.fin τ) ∧
  ((Motion.time_to_speed mt m v1).1 = Xf.inf ↔
    ∀ τ, 0 ≤ τ → Motion.speed_poly mt m τ ≠ v1) ∧
  (∀ τ, (Motion.time_to_speed mt m v1).1 = Xf.fin τ →
    0 ≤ τ ∧ Motion.speed_poly mt m τ = v1 ∧
    ∀ σ, 0 ≤ σ → Motion.speed_poly mt m σ = v1 → τ ≤ σ) ∧
  ((Motion.time_to_speed mt m v1).2 = Xf.inf ∨
    ∃ σ, (Motion.time_to_speed mt m v1).2 = Xf.fin σ) ∧
  (∀ σ, (Motion.time_to_speed mt m v1).2 = Xf.fin σ →
    0 ≤ σ ∧ Motion.speed_poly mt m σ = v1 ∧
    (∀ ρ, 0 ≤ ρ → Motion.speed_poly mt m ρ = v1 → ρ ≤ σ) ∧
    ∃ τ, (Motion.time_to_speed mt m v1).1 = Xf.fin τ ∧ τ < σ) ∧
  ((∃ τ1 τ2, 0 ≤ τ1 ∧ τ1 < τ2 ∧ Motion.speed_poly mt m τ1 = v1 ∧
      Motion.speed_poly mt m τ2 = v1 ∧
      ∀ ρ, Motion.speed_poly mt m ρ = v1 → ρ = τ1 ∨ ρ = τ2) →
    ∃ σ, (Motion.time_to_speed mt m v1).2 = Xf.fin σ)

/-- Root completeness of `time_to_speed`: every non-negative root of the
speed polynomial is reported (in one of the two result slots).  This holds
for the jerked order away from the degenerate constant polynomial, and is
what the bounded integrator relies on. -/
def TimeToSpeedComplete (mt : MotionType) (m : MState) (v1 : ℝ) : Prop :=
  ∀ τ, 0 ≤ τ → Motion.speed_poly mt m τ = v1 →
    (Motion.time_to_speed mt m v1).1 = Xf.fin τ ∨
      (Motion.time_to_speed mt m v1).2 = Xf.fin τ

/-- A concrete bounded-motion state (position 2.4, speed 1, acceleration −1,
zero jerk, corridor `[0, 10]`) used by the counterexamples below. -/
def cexSLM : SpeedLimitedMotion := ⟨2.4, 1, -1, 0, ((10 : ℝ) : WithTop ℝ), 0⟩

/-- The same state mounted in a moving reel of (non-whole) length 2.5. -/
def cexReel : ReelMotion := ⟨cexSLM, ReelState.moving, 2.5, 0, 0⟩

/-- A bounded state with a pinched corridor: `m_min_speed = 1` equals
`m_max_speed = 1`, speed starts exactly on the bound, and the parabola
`1 − 2τ + τ²` dips below it between its two boundary hits at `τ = 0` and
`τ = 2`. -/
def cex2SLM : SpeedLimitedMotion := ⟨0, 1, -2, 2, ((1 : ℝ) : WithTop ℝ), 1⟩

end

namespace Slot

/-- `Symbol` from `symbol.hpp` (without the `number` count sentinel appearing
in rows; it is kept because `get_symbol_base_value` handles it). -/
inductive Symbol where
  | lucky_seven : Symbol
  | cross : Symbol
  | respin : Symbol
  | question : Symbol
  | apple : Symbol
  | carrot : Symbol
  | corn : Symbol
  | grape : Symbol
  | spade : Symbol
  | club : Symbol
  | heart : Symbol
  | diamond : Symbol
  | amethyst : Symbol
  | emerald : Symbol
  | topaz : Symbol
  | crystal : Symbol
  | number : Symbol
deriving DecidableEq, Repr

/-- `SymbolFamily` from `symbol.hpp`. -/
inductive SymbolFamily where
  | special : SymbolFamily
  | fruit : SymbolFamily
  | suit : SymbolFamily
  | jewel : SymbolFamily
  | number : SymbolFamily
deriving DecidableEq, Repr

/-- `get_symbol_family` from `symbol.hpp`. -/
def get_symbol_family : Symbol → SymbolFamily
  | Symbol.lucky_seven | Symbol.respin | Symbol.question | Symbol.cross =>
    SymbolFamily.special
  | Symbol.apple | Symbol.carrot | Symbol.corn | Symbol.grape => SymbolFamily.fruit
  | Symbol.spade | Symbol.club | Symbol.heart | Symbol.diamond => SymbolFamily.suit
  | Symbol.amethyst | Symbol.emerald | Symbol.topaz | Symbol.crystal =>
    SymbolFamily.jewel
  | Symbol.number => SymbolFamily.number

/-- `g_nreels` from `configuration.hpp`: the row length. -/
def g_nreels : ℕ := 5

namespace Combination

/-- `Combination::Range`: a maximal run `{begin, size}` of the row. -/
structure Range where
  begin : ℕ
  size : ℕ
deriving DecidableEq, Repr

instance : Inhabited Range := ⟨⟨0, 0⟩⟩

/-- `Combination::Result`. -/
structure Result where
  combo_range : Range
  points : ℕ
  free_speen : Bool
deriving DecidableEq, Repr

/-- `Combination::get_symbol_base_value`. -/
def get_symbol_base_value : Symbol → ℕ
  | Symbol.lucky_seven => 32
  | Symbol.cross | Symbol.respin | Symbol.question => 12
  | Symbol.apple | Symbol.carrot | Symbol.corn | Symbol.grape => 8
  | Symbol.spade | Symbol.club | Symbol.heart | Symbol.diamond => 16
  | Symbol.amethyst | Symbol.emerald | Symbol.topaz | Symbol.crystal => 24
  | Symbol.number => 0

def big_multiplier : ℕ := 5

def small_multiplier : ℕ := 2

/-- Tail of `std::unique`: drop the elements equal to the last kept one. -/
def unique_from (x : Range) : List Range → List Range
  | [] => []
  | y :: rest => if x = y then unique_from x rest else y :: unique_from y rest

/-- `std::unique` on the whole vector: drop adjacent duplicates, keeping the
first of each run. -/
def unique_adjacent : List Range → List Range
  | [] => []
  | x :: rest => x :: unique_from x rest

/-- `vector::erase(begin + i)`: remove the element at index `i`. -/
def erase_at (l : List Range) (i : ℕ) : List Range := l.take i ++ l.drop (i + 1)

/-- `vector::erase(begin + i, begin + i + 2)`: remove two elements at `i`. -/
def erase_at2 (l : List Range) (i : ℕ) : List Range := l.take i ++ l.drop (i + 2)

/-- `Combination::get_ranges`: cover the row by maximal ranges of equal
symbols, using the in-place begin/size propagation of the source, then
`std::unique` plus removal of a possible `{0,0}` entry. -/
def get_ranges (data : List Symbol) : List Range := Id.run do
  let size := data.length
  if size = 0 then
    return []
  let mut ranges : Array Range := Array.mkArray size ⟨0, 0⟩
  ranges := ranges.set! 0 ⟨0, 1⟩
  for i in [1:size] do
    let prev_range := ranges.get! ((ranges.get! (i - 1)).begin)
    if data.getD i Symbol.number = data.getD prev_range.begin Symbol.number then
      ranges := ranges.set! i { ranges.get! i with begin := prev_range.begin }
      ranges := ranges.set! prev_range.begin { prev_range with size := prev_range.size + 1 }
    else
      let range_end := prev_range.begin + prev_range.size
      for j in [prev_range.begin + 1 : range_end] do
        ranges := ranges.set! j prev_range
      ranges := ranges.set! i ⟨i, 1⟩
  let last_range := ranges.get! ((ranges.get! (size - 1)).begin)
  for j in [last_range.begin + 1 : size] do
    ranges := ranges.set! j last_range
  return (unique_adjacent ranges.toList).erase ⟨0, 0⟩

/-- First loop of `Combination::apply_questions`, fuel-structured: merge
`X ? X` triples of ranges (a question range whose flanks carry the same
symbol) into the left range, erasing the two absorbed ranges and retrying at
the same index.  Each iteration either advances `i` or shortens the list, so
the measure `2·length − i` bounds the iteration count; the caller supplies
more fuel than that and the fuel never runs out. -/
def question_middle_go (row : List Symbol) : ℕ → List Range → ℕ → List Range
  | 0, ranges, _ => ranges
  | fuel + 1, ranges, i =>
    if i + 1 < ranges.length then
      let s := row.getD (ranges.getD i ⟨0, 0⟩).begin Symbol.number
      let ls := row.getD (ranges.getD (i - 1) ⟨0, 0⟩).begin Symbol.number
      let rs := row.getD (ranges.getD (i + 1) ⟨0, 0⟩).begin Symbol.number
      if s = Symbol.question ∧ ls = rs then
        let lr := ranges.getD (i - 1) ⟨0, 0⟩
        let merged : Range :=
          { lr with
            size := lr.size + (ranges.getD i ⟨0, 0⟩).size +
              (ranges.getD (i + 1) ⟨0, 0⟩).size }
        question_middle_go row fuel (erase_at2 (ranges.set (i - 1) merged) i) i
      else question_middle_go row fuel ranges (i + 1)
    else ranges

def question_middle_loop (row : List Symbol) (ranges : List Range) (i : ℕ) :
    List Range :=
  question_middle_go row (2 * ranges.length + 1) ranges i

/-- One iteration of the second loop of `Combination::apply_questions`
(lines 142-164): try to expand an isolated question range into its strictly
larger neighbour; returns the updated range list and the next loop index.
The tie case binds the reference to the local `dummy{0,0}` range. -/
def question_expand_step (row : List Symbol) (ranges : List Range) (i : ℕ) :
    List Range × ℕ :=
  let s := row.getD (ranges.getD i ⟨0, 0⟩).begin Symbol.number
  if s = Symbol.question then
    let wild := ranges.getD i ⟨0, 0⟩
    let tgt : Option ℕ :=
      if i = 0 then some (i + 1)
      else if i = ranges.length - 1 then some (i - 1)
      else if (ranges.getD (i - 1) ⟨0, 0⟩).size < (ranges.getD (i + 1) ⟨0, 0⟩).size then
        some (i + 1)
      else if (ranges.getD (i + 1) ⟨0, 0⟩).size < (ranges.getD (i - 1) ⟨0, 0⟩).size then
        some (i - 1)
      else none
    let tsize := match tgt with
      | some t => (ranges.getD t ⟨0, 0⟩).size
      | none => 0
    if tsize < wild.size then (ranges, i + 1)
    else
      match tgt with
      | some t =>
        let tr := ranges.getD t ⟨0, 0⟩
        let merged : Range := ⟨min tr.begin wild.begin, tr.size + wild.size⟩
        (erase_at (ranges.set t merged) i, i)
      | none =>
        -- the updates went to the local dummy and are lost; only the erase
        -- of the question range remains observable (never reached: run
        -- sizes are at least 1, so `tsize < wild.size` holds on a tie)
        (erase_at ranges i, i)
  else (ranges, i + 1)

/-- Second loop of `Combination::apply_questions`, fuel-structured (each step
advances the index or shortens the list, so the fuel below never runs out). -/
def question_expand_go (row : List Symbol) : ℕ → List Range → ℕ → List Range
  | 0, ranges, _ => ranges
  | fuel + 1, ranges, i =>
    if i < ranges.length then
      let p := question_expand_step row ranges i
      question_expand_go row fuel p.1 p.2
    else ranges

def question_expand_loop (row : List Symbol) (ranges : List Range) (i : ℕ) :
    List Range :=
  question_expand_go row (2 * ranges.length + 1) ranges i

/-- `Combination::apply_questions`. -/
def apply_questions (row : List Symbol) (ranges : List Range) : List Range :=
  if (ranges.getD 0 ⟨0, 0⟩).size = g_nreels then ranges
  else question_expand_loop row (question_middle_loop row ranges 1) 0

/-- `Combination::apply_crosses`: every cross range caps both of its
immediate neighbour ranges to size 1 (fuel-structured; `List.set` keeps the
length, so `length − i` bounds the iteration count). -/
def apply_crosses_go (row : List Symbol) : ℕ → List Range → ℕ → List Range
  | 0, ranges, _ => ranges
  | fuel + 1, ranges, i =>
    if i < ranges.length then
      let s := row.getD (ranges.getD i ⟨0, 0⟩).begin Symbol.number
      let ranges' :=
        if s = Symbol.cross then
          let r1 :=
            if 0 < i then ranges.set (i - 1) { ranges.getD (i - 1) ⟨0, 0⟩ with size := 1 }
            else ranges
          if i + 1 < ranges.length then
            r1.set (i + 1) { r1.getD (i + 1) ⟨0, 0⟩ with size := 1 }
          else r1
        else ranges
      apply_crosses_go row fuel ranges' (i + 1)
    else ranges

def apply_crosses (row : List Symbol) (ranges : List Range) : List Range :=
  apply_crosses_go row (ranges.length + 1) ranges 0

/-- `Combination::apply_family_symbols` main loop: merge adjacent ranges of
one non-special family unless a cross range sits one step further out
(fuel-structured; `List.set` keeps the length). -/
def apply_family_go (row : List Symbol) : ℕ → List Range → ℕ → List Range
  | 0, ranges, _ => ranges
  | fuel + 1, ranges, i =>
    if i < ranges.length then
      let prev := ranges.getD (i - 1) ⟨0, 0⟩
      let cur := ranges.getD i ⟨0, 0⟩
      let s := row.getD cur.begin Symbol.number
      let ps := row.getD (cur.begin - 1) Symbol.number
      let sf := get_symbol_family s
      let psf := get_symbol_family ps
      if sf ≠ psf ∨ sf = SymbolFamily.special then apply_family_go row fuel ranges (i + 1)
      else
        if (1 < i ∧ row.getD (ranges.getD (i - 2) ⟨0, 0⟩).begin Symbol.number = Symbol.cross) ∨
            (i + 1 < ranges.length ∧
              row.getD (ranges.getD (i + 1) ⟨0, 0⟩).begin Symbol.number = Symbol.cross) then
          apply_family_go row fuel ranges (i + 1)
        else
          let np := { prev with size := prev.size + cur.size }
          apply_family_go row fuel ((ranges.set (i - 1) np).set i np) (i + 1)
    else ranges

def apply_family_symbols (row : List Symbol) (ranges : List Range) : List Range :=
  unique_adjacent (apply_family_go row (ranges.length + 1) ranges 1)

/-- `Combination::get_max_equal_range` acting on the combo sub-row. -/
def get_max_equal_range (data : List Symbol) : Range := Id.run do
  let size := data.length
  if size = 0 then
    return ⟨0, 0⟩
  let mut cur : Range := ⟨0, 1⟩
  let mut maximal := cur
  let mut prev_val := data.getD 0 Symbol.number
  for i in [1:size] do
    if data.getD i Symbol.number = prev_val then
      cur := { cur with size := cur.size + 1 }
    else
      maximal := if maximal.size < cur.size then cur else maximal
      cur := ⟨i, 1⟩
      prev_val := data.getD i Symbol.number
  maximal := if maximal.size < cur.size then cur else maximal
  return maximal

/-- The `Combination` object: a row together with its maximal ranges, as
built by the constructor. -/
structure State where
  m_row : List Symbol
  m_ranges : List Range

def mk (row : List Symbol) : State := ⟨row, get_ranges row⟩

/-- The range lists after each resolution pass of `get_result`. -/
def ranges_after_questions (c : State) : List Range :=
  apply_questions c.m_row c.m_ranges

def ranges_after_crosses (c : State) : List Range :=
  apply_crosses c.m_row (ranges_after_questions c)

def ranges_after_family (c : State) : List Range :=
  apply_family_symbols c.m_row (ranges_after_crosses c)

/-- `Combination::get_result`. -/
def get_result (c : State) : Result :=
  let ranges := ranges_after_family c
  let combo :=
    (ranges.drop 1).foldl (fun best r => if best.size < r.size then r else best)
      (ranges.getD 0 ⟨0, 0⟩)
  if combo.size < (g_nreels + 1) / 2 then ⟨combo, 0, false⟩
  else
    let equal_symbols := get_max_equal_range ((c.m_row.drop combo.begin).take combo.size)
    let dominant := c.m_row.getD (combo.begin + equal_symbols.begin) Symbol.number
    let fixup : Symbol × Range :=
      if dominant = Symbol.question ∧ equal_symbols.size < combo.size then
        let cmb_beg := combo.begin
        let cmb_end := cmb_beg + combo.size
        let es_beg := equal_symbols.begin + combo.begin
        let es_end := es_beg + equal_symbols.size
        if (cmb_beg < es_beg ∧ es_end < cmb_end) ∧
            c.m_row.getD (es_beg - 1) Symbol.number = c.m_row.getD es_end Symbol.number then
          (c.m_row.getD (es_beg - 1) Symbol.number, equal_symbols)
        else
          (c.m_row.getD es_end Symbol.number,
            { equal_symbols with begin := equal_symbols.begin + equal_symbols.size })
      else (dominant, equal_symbols)
    let multiplier :=
      big_multiplier ^ fixup.2.size * small_multiplier ^ (combo.size - fixup.2.size)
    ⟨combo, multiplier * get_symbol_base_value fixup.1, fixup.1 = Symbol.respin⟩

end Combination

end Slot

/-! ## Theorems -/

/-- C5: for every motion order and all `dt1`, `dt2`, `advance(dt1)` followed by
`advance(dt2)` yields the same position, speed and acceleration as a single
`advance(dt1 + dt2)` — the step is the exact polynomial flow, so it composes
additively in exact arithmetic. -/
theorem Motion.advance_additive (mt : MotionType) (m : MState) (dt1 dt2 : ℝ) :
    Motion.get_position (Motion.advance mt (Motion.advance mt m dt1) dt2) =
      Motion.get_position (Motion.advance mt m (dt1 + dt2)) ∧
    Motion.get_speed mt (Motion.advance mt (Motion.advance mt m dt1) dt2) =
      Motion.get_speed mt (Motion.advance mt m (dt1 + dt2)) ∧
    Motion.get_acceleration mt (Motion.advance mt (Motion.advance mt m dt1) dt2) =
      Motion.get_acceleration mt (Motion.advance mt m (dt1 + dt2)) := by
  cases mt <;>
    refine ⟨?_, ?_, ?_⟩ <;>
    simp [Motion.advance, Motion.get_position, Motion.get_speed,
      Motion.get_acceleration, Motion.get_jerk, Motion.set_positon,
      Motion.set_speed, Motion.set_acceleration, MotionType.ord] <;>
    ring

/-- C4: `quad_equation` implements the documented root policy: the all-zero
equation yields the "infinitely many solutions" marker, the linear case yields
`-c/b` (an actual root), `a = b = 0 ≠ c` yields no roots, and for `a ≠ 0` the
discriminant decides between two distinct genuine roots, one double root, and
no real roots at all. -/
theorem quad_equation_spec (a b c : ℝ) :
    (a = 0 → b = 0 → c = 0 → quad_equation a b c = (Xf.inf, Xf.nan)) ∧
    (a = 0 → b ≠ 0 →
      quad_equation a b c = (Xf.fin (-c / b), Xf.nan) ∧
        a * (-c / b) ^ 2 + b * (-c / b) + c = 0) ∧
    (a = 0 → b = 0 → c ≠ 0 → quad_equation a b c = (Xf.nan, Xf.nan)) ∧
    (a ≠ 0 → 0 < b ^ 2 - 4 * a * c →
      quad_equation a b c =
        (Xf.fin ((-b + Real.sqrt (b ^ 2 - 4 * a * c)) / (2 * a)),
          Xf.fin ((-b - Real.sqrt (b ^ 2 - 4 * a * c)) / (2 * a))) ∧
        (-b + Real.sqrt (b ^ 2 - 4 * a * c)) / (2 * a) ≠
          (-b - Real.sqrt (b ^ 2 - 4 * a * c)) / (2 * a) ∧
        (∀ x, x = (-b + Real.sqrt (b ^ 2 - 4 * a * c)) / (2 * a) ∨
            x = (-b - Real.sqrt (b ^ 2 - 4 * a * c)) / (2 * a) →
          a * x ^ 2 + b * x + c = 0)) ∧
    (a ≠ 0 → b ^ 2 - 4 * a * c = 0 →
      quad_equation a b c = (Xf.fin (-b / (2 * a)), Xf.nan) ∧
        a * (-b / (2 * a)) ^ 2 + b * (-b / (2 * a)) + c = 0) ∧
    (a ≠ 0 → b ^ 2 - 4 * a * c < 0 →
      quad_equation a b c = (Xf.nan, Xf.nan) ∧ ∀ x : ℝ, a * x ^ 2 + b * x + c ≠ 0) := by
  have hsq : b ^ 2 - 4 * a * c = b * b - 4 * a * c := by ring
  refine ⟨?_, ?_, ?_, ?_, ?_, ?_⟩
  · intro h1 h2 h3
    simp [quad_equation, h1, h2, h3]
  · intro h1 h2
    constructor
    · simp [quad_equation, h1, h2]
    · subst h1
      field_simp
      ring
  · intro h1 h2 h3
    simp [quad_equation, h1, h2, h3]
  · intro h1 h2
    have hd : (0 : ℝ) < b * b - 4 * a * c := by linarith [hsq]
    have hs : Real.sqrt (b ^ 2 - 4 * a * c) * Real.sqrt (b ^ 2 - 4 * a * c) =
        b ^ 2 - 4 * a * c := Real.mul_self_sqrt (by linarith)
    have hspos : 0 < Real.sqrt (b ^ 2 - 4 * a * c) := Real.sqrt_pos.mpr (by linarith)
    have hdisc : discrim a b c =
        Real.sqrt (b ^ 2 - 4 * a * c) * Real.sqrt (b ^ 2 - 4 * a * c) := by
      rw [hs, discrim]
    refine ⟨?_, ?_, ?_⟩
    · simp only [quad_equation, if_neg h1, hsq, if_pos hd]
    · intro heq
      have h2a : (2 : ℝ) * a ≠ 0 := mul_ne_zero two_ne_zero h1
      rw [div_eq_div_iff h2a h2a] at heq
      have h4 : 4 * a * Real.sqrt (b ^ 2 - 4 * a * c) = 0 := by linear_combination heq
      have h4a : (4 : ℝ) * a ≠ 0 := mul_ne_zero (by norm_num) h1
      exact mul_ne_zero h4a (ne_of_gt hspos) h4
    · intro x hx
      have := (quadratic_eq_zero_iff h1 hdisc x).mpr
      have hx2 : a * (x * x) + b * x + c = 0 := this hx
      nlinarith [hx2]
  · intro h1 h2
    have hd0 : b * b - 4 * a * c = 0 := by linarith [hsq]
    have hdn : ¬(0 : ℝ) < b * b - 4 * a * c := by linarith
    constructor
    · simp only [quad_equation, if_neg h1, if_neg hdn, if_pos hd0]
    · have hdisc : discrim a b c = 0 := by rw [discrim]; linarith
      have := (quadratic_eq_zero_iff_of_discrim_eq_zero h1 hdisc (-b / (2 * a))).mpr rfl
      nlinarith [this]
  · intro h1 h2
    have hd0 : ¬b * b - 4 * a * c = 0 := by nlinarith [hsq]
    have hdn : ¬(0 : ℝ) < b * b - 4 * a * c := by nlinarith
    constructor
    · simp only [quad_equation, if_neg h1, if_neg hdn, if_neg hd0]
    · intro x hx
      have hne : ∀ s : ℝ, discrim a b c ≠ s ^ 2 := by
        intro s
        rw [discrim]
        nlinarith [sq_nonneg s]
      exact quadratic_ne_zero_of_discrim_ne_sq hne x (by nlinarith [hx])

/-- Witness for C4: the linear branch at `a = 0, b = 2, c = 4` produces the
single root `-2`. -/
theorem quad_equation_spec_witness :
    quad_equation 0 2 4 = (Xf.fin (-2), Xf.nan) ∧
      (0 : ℝ) * (-2 : ℝ) ^ 2 + 2 * (-2) + 4 = 0 := by
  have h := (quad_equation_spec 0 2 4).2.1 rfl (by norm_num)
  constructor
  · rw [show ((-2 : ℝ)) = -4 / 2 by norm_num]
    exact h.1
  · norm_num

/-- C9: on the row `[apple, apple, cross, apple, apple]` the disruptor caps
both adjacent runs to size 1, no remaining run reaches the weak-combination
cutoff `(5+1)/2 = 3`, and the result is zero points with no free spin. -/
theorem combination_cross_breaks_row :
    Slot.Combination.ranges_after_crosses
        (Slot.Combination.mk
          [Slot.Symbol.apple, Slot.Symbol.apple, Slot.Symbol.cross,
            Slot.Symbol.apple, Slot.Symbol.apple]) =
      [⟨0, 1⟩, ⟨2, 1⟩, ⟨3, 1⟩] ∧
    (∀ r ∈ Slot.Combination.ranges_after_family
        (Slot.Combination.mk
          [Slot.Symbol.apple, Slot.Symbol.apple, Slot.Symbol.cross,
            Slot.Symbol.apple, Slot.Symbol.apple]),
      r.size < (Slot.g_nreels + 1) / 2) ∧
    (Slot.g_nreels + 1) / 2 = 3 ∧
    Slot.Combination.get_result
        (Slot.Combination.mk
          [Slot.Symbol.apple, Slot.Symbol.apple, Slot.Symbol.cross,
            Slot.Symbol.apple, Slot.Symbol.apple]) =
      ⟨⟨0, 1⟩, 0, false⟩ := by
  decide

/-- C10: `set_max_speed` / `set_min_speed` write only the proxy field; the
bounds used by the integrator and all other state are untouched, and the
stored value becomes the active bound only on the next `go_full_speed_in`
(for the maximum) or `slow_to_minimal_in` (for the minimum). -/
theorem reel_set_speed_proxies (r : ReelMotion) (v t : ℝ) (ht : t ≠ 0) :
    ((r.set_max_speed v).m_max_speed = r.m_max_speed ∧
      (r.set_max_speed v).m_min_speed = r.m_min_speed ∧
      (r.set_max_speed v).position = r.position ∧
      (r.set_max_speed v).speed = r.speed ∧
      (r.set_max_speed v).acceleration = r.acceleration ∧
      (r.set_max_speed v).jerk = r.jerk ∧
      (r.set_max_speed v).m_state = r.m_state ∧
      (r.set_max_speed v).m_length = r.m_length ∧
      (r.set_max_speed v).m_min_speed_proxy = r.m_min_speed_proxy ∧
      (r.set_max_speed v).m_max_speed_proxy = v) ∧
    ((r.set_min_speed v).m_max_speed = r.m_max_speed ∧
      (r.set_min_speed v).m_min_speed = r.m_min_speed ∧
      (r.set_min_speed v).position = r.position ∧
      (r.set_min_speed v).speed = r.speed ∧
      (r.set_min_speed v).acceleration = r.acceleration ∧
      (r.set_min_speed v).jerk = r.jerk ∧
      (r.set_min_speed v).m_state = r.m_state ∧
      (r.set_min_speed v).m_length = r.m_length ∧
      (r.set_min_speed v).m_max_speed_proxy = r.m_max_speed_proxy ∧
      (r.set_min_speed v).m_min_speed_proxy = v) ∧
    ((r.set_max_speed v).go_full_speed_in t).m_max_speed = (v : WithTop ℝ) ∧
    ((r.set_min_speed v).slow_to_minimal_in t).m_min_speed = v := by
  refine ⟨⟨rfl, rfl, rfl, rfl, rfl, rfl, rfl, rfl, rfl, rfl⟩,
    ⟨rfl, rfl, rfl, rfl, rfl, rfl, rfl, rfl, rfl, rfl⟩, rfl, rfl⟩

/-- Witness for C10 at a freshly constructed reel of length 1 with `v = 2`,
`t = 1`. -/
theorem reel_set_speed_proxies_witness :
    (((ReelMotion.mk0 1).set_max_speed 2).go_full_speed_in 1).m_max_speed =
      ((2 : ℝ) : WithTop ℝ) ∧
    (((ReelMotion.mk0 1).set_min_speed 2).slow_to_minimal_in 1).m_min_speed = 2 := by
  have h := reel_set_speed_proxies (ReelMotion.mk0 1) 2 1 (by norm_num)
  exact ⟨h.2.2.1, h.2.2.2⟩

/-- Counterexample for C7: on a freshly constructed (resting) reel,
`slow_to_minimal_in(1)` leaves the controller in `Rest`; it does not
transition to `Impacted` (unlike `go_full_speed_in`). -/
theorem slow_to_minimal_in_state_cex :
    ((ReelMotion.mk0 1).slow_to_minimal_in 1).m_state = ReelState.rest ∧
      ReelState.rest ≠ ReelState.had_impact := ⟨rfl, by decide⟩

/-- C7 (amended): for `t ≠ 0`, `slow_to_minimal_in(t)` sets the active
minimum bound to the configured floor (the min-speed proxy) and the
acceleration to `(floor - speed)/t`, and leaves everything else — including
the controller state — unchanged. -/
theorem slow_to_minimal_in_spec (r : ReelMotion) (t : ℝ) (ht : t ≠ 0) :
    (r.slow_to_minimal_in t).m_min_speed = r.m_min_speed_proxy ∧
    (r.slow_to_minimal_in t).acceleration = (r.m_min_speed_proxy - r.speed) / t ∧
    (r.slow_to_minimal_in t).m_state = r.m_state ∧
    (r.slow_to_minimal_in t).position = r.position ∧
    (r.slow_to_minimal_in t).speed = r.speed ∧
    (r.slow_to_minimal_in t).jerk = r.jerk ∧
    (r.slow_to_minimal_in t).m_max_speed = r.m_max_speed ∧
    (r.slow_to_minimal_in t).m_length = r.m_length ∧
    (r.slow_to_minimal_in t).m_min_speed_proxy = r.m_min_speed_proxy ∧
    (r.slow_to_minimal_in t).m_max_speed_proxy = r.m_max_speed_proxy := by
  exact ⟨rfl, rfl, rfl, rfl, rfl, rfl, rfl, rfl, rfl, rfl⟩

/-- Witness for C7 (amended) on a freshly constructed reel with `t = 1`. -/
theorem slow_to_minimal_in_spec_witness :
    ((ReelMotion.mk0 1).slow_to_minimal_in 1).m_state = ReelState.rest ∧
    ((ReelMotion.mk0 1).slow_to_minimal_in 1).m_min_speed =
      (ReelMotion.mk0 1).m_min_speed_proxy := by
  have h := slow_to_minimal_in_spec (ReelMotion.mk0 1) 1 (by norm_num)
  exact ⟨h.2.2.1, h.1⟩

/-- C8: behaviour of one iteration of the wildcard-expansion pass on a
question range (the run sizes in play are at least 1).  Interior wildcard:
on a size tie of the two flanking runs nothing is merged; otherwise the
strictly larger flank is chosen, and the merge happens exactly when the
wildcard run is not larger than that flank.  A wildcard at either end merges
into its only neighbour under the same size guard. -/
theorem question_expand_step_spec (row : List Slot.Symbol)
    (R : List Slot.Combination.Range) (i : ℕ) (hlen : 2 ≤ R.length)
    (hi : i < R.length)
    (hq : row.getD (R.getD i ⟨0, 0⟩).begin Slot.Symbol.number = Slot.Symbol.question)
    (hw : 1 ≤ (R.getD i ⟨0, 0⟩).size) :
    (0 < i → i < R.length - 1 →
      (R.getD (i - 1) ⟨0, 0⟩).size = (R.getD (i + 1) ⟨0, 0⟩).size →
      Slot.Combination.question_expand_step row R i = (R, i + 1)) ∧
    (0 < i → i < R.length - 1 →
      (R.getD (i - 1) ⟨0, 0⟩).size < (R.getD (i + 1) ⟨0, 0⟩).size →
      ((R.getD (i + 1) ⟨0, 0⟩).size < (R.getD i ⟨0, 0⟩).size →
        Slot.Combination.question_expand_step row R i = (R, i + 1)) ∧
      ((R.getD i ⟨0, 0⟩).size ≤ (R.getD (i + 1) ⟨0, 0⟩).size →
        Slot.Combination.question_expand_step row R i =
          (Slot.Combination.erase_at
            (R.set (i + 1)
              ⟨min (R.getD (i + 1) ⟨0, 0⟩).begin (R.getD i ⟨0, 0⟩).begin,
                (R.getD (i + 1) ⟨0, 0⟩).size + (R.getD i ⟨0, 0⟩).size⟩) i, i))) ∧
    (0 < i → i < R.length - 1 →
      (R.getD (i + 1) ⟨0, 0⟩).size < (R.getD (i - 1) ⟨0, 0⟩).size →
      ((R.getD (i - 1) ⟨0, 0⟩).size < (R.getD i ⟨0, 0⟩).size →
        Slot.Combination.question_expand_step row R i = (R, i + 1)) ∧
      ((R.getD i ⟨0, 0⟩).size ≤ (R.getD (i - 1) ⟨0, 0⟩).size →
        Slot.Combination.question_expand_step row R i =
          (Slot.Combination.erase_at
            (R.set (i - 1)
              ⟨min (R.getD (i - 1) ⟨0, 0⟩).begin (R.getD i ⟨0, 0⟩).begin,
                (R.getD (i - 1) ⟨0, 0⟩).size + (R.getD i ⟨0, 0⟩).size⟩) i, i))) ∧
    (i = 0 →
      ((R.getD (i + 1) ⟨0, 0⟩).size < (R.getD i ⟨0, 0⟩).size →
        Slot.Combination.question_expand_step row R i = (R, i + 1)) ∧
      ((R.getD i ⟨0, 0⟩).size ≤ (R.getD (i + 1) ⟨0, 0⟩).size →
        Slot.Combination.question_expand_step row R i =
          (Slot.Combination.erase_at
            (R.set (i + 1)
              ⟨min (R.getD (i + 1) ⟨0, 0⟩).begin (R.getD i ⟨0, 0⟩).begin,
                (R.getD (i + 1) ⟨0, 0⟩).size + (R.getD i ⟨0, 0⟩).size⟩) i, i))) ∧
    (i = R.length - 1 → 0 < i →
      ((R.getD (i - 1) ⟨0, 0⟩).size < (R.getD i ⟨0, 0⟩).size →
        Slot.Combination.question_expand_step row R i = (R, i + 1)) ∧
      ((R.getD i ⟨0, 0⟩).size ≤ (R.getD (i - 1) ⟨0, 0⟩).size →
        Slot.Combination.question_expand_step row R i =
          (Slot.Combination.erase_at
            (R.set (i - 1)
              ⟨min (R.getD (i - 1) ⟨0, 0⟩).begin (R.getD i ⟨0, 0⟩).begin,
                (R.getD (i - 1) ⟨0, 0⟩).size + (R.getD i ⟨0, 0⟩).size⟩) i, i))) := by
  simp only [List.getD_eq_getElem?_getD] at hq
  refine ⟨?_, ?_, ?_, ?_, ?_⟩
  · intro h0 hlast heq
    have h1 : i ≠ 0 := by omega
    have h2 : i ≠ R.length - 1 := by omega
    have h3 : ¬(R.getD (i - 1) ⟨0, 0⟩).size < (R.getD (i + 1) ⟨0, 0⟩).size := by omega
    have h4 : ¬(R.getD (i + 1) ⟨0, 0⟩).size < (R.getD (i - 1) ⟨0, 0⟩).size := by omega
    have h5 : 0 < (R.getD i ⟨0, 0⟩).size := hw
    simp only [List.getD_eq_getElem?_getD] at h3 h4 h5
    simp [Slot.Combination.question_expand_step, hq, h1, h2, h3, h4, h5]
  · intro h0 hlast hlt
    have h1 : i ≠ 0 := by omega
    have h2 : i ≠ R.length - 1 := by omega
    simp only [List.getD_eq_getElem?_getD] at hlt
    constructor
    · intro hbig
      simp only [List.getD_eq_getElem?_getD] at hbig
      simp [Slot.Combination.question_expand_step, hq, h1, h2, hlt, hbig]
    · intro hle
      have h6 : ¬(R.getD (i + 1) ⟨0, 0⟩).size < (R.getD i ⟨0, 0⟩).size := by omega
      simp only [List.getD_eq_getElem?_getD] at h6
      simp [Slot.Combination.question_expand_step, hq, h1, h2, hlt, h6]
  · intro h0 hlast hlt
    have h1 : i ≠ 0 := by omega
    have h2 : i ≠ R.length - 1 := by omega
    have h3 : ¬(R.getD (i - 1) ⟨0, 0⟩).size < (R.getD (i + 1) ⟨0, 0⟩).size := by omega
    simp only [List.getD_eq_getElem?_getD] at hlt h3
    constructor
    · intro hbig
      simp only [List.getD_eq_getElem?_getD] at hbig
      simp [Slot.Combination.question_expand_step, hq, h1, h2, h3, hlt, hbig]
    · intro hle
      have h6 : ¬(R.getD (i - 1) ⟨0, 0⟩).size < (R.getD i ⟨0, 0⟩).size := by omega
      simp only [List.getD_eq_getElem?_getD] at h6
      simp [Slot.Combination.question_expand_step, hq, h1, h2, h3, hlt, h6]
  · intro h0
    subst h0
    constructor
    · intro hbig
      simp only [List.getD_eq_getElem?_getD] at hbig
      simp [Slot.Combination.question_expand_step, hq, hbig]
    · intro hle
      have h6 : ¬(R.getD (0 + 1) ⟨0, 0⟩).size < (R.getD 0 ⟨0, 0⟩).size := by omega
      simp only [List.getD_eq_getElem?_getD] at h6
      simp [Slot.Combination.question_expand_step, hq, h6]
  · intro hlast h0
    subst hlast
    have h7 : ¬(R.length - 1 = 0) := by omega
    constructor
    · intro hbig
      simp only [List.getD_eq_getElem?_getD] at hbig
      simp [Slot.Combination.question_expand_step, hq, h7, hbig]
    · intro hle
      have h6 : ¬(R.getD (R.length - 1 - 1) ⟨0, 0⟩).size <
          (R.getD (R.length - 1) ⟨0, 0⟩).size := by omega
      simp only [List.getD_eq_getElem?_getD] at h6
      simp [Slot.Combination.question_expand_step, hq, h7, h6]

/-- Witness for C8: on `[apple, apple, ?, grape, grape]` the two flanks of the
middle wildcard tie (both size 2), so the expansion step leaves the ranges
unchanged. -/
theorem question_expand_step_spec_witness :
    Slot.Combination.question_expand_step
        [Slot.Symbol.apple, Slot.Symbol.apple, Slot.Symbol.question,
          Slot.Symbol.grape, Slot.Symbol.grape]
        [⟨0, 2⟩, ⟨2, 1⟩, ⟨3, 2⟩] 1 =
      ([⟨0, 2⟩, ⟨2, 1⟩, ⟨3, 2⟩], 2) := by
  have h := question_expand_step_spec
    [Slot.Symbol.apple, Slot.Symbol.apple, Slot.Symbol.question,
      Slot.Symbol.grape, Slot.Symbol.grape]
    [⟨0, 2⟩, ⟨2, 1⟩, ⟨3, 2⟩] 1 (by decide) (by decide) (by decide) (by decide)
  exact h.1 (by decide) (by decide) (by decide)

/-- Counterexample for C1: the claim quantifies over every `ReelMotion`, but
when the current speed is negative (here `-1`, a state reachable through a
negative min-speed proxy) the planned profile starts with negative speed, so
"speed non-negative at every time in `[0, t]`" already fails at time 0, even
though reel length `1 > 0`, `t = 1 ≠ 0` and `target 0 ≤ length`. -/
theorem stop_in_negative_speed_cex :
    (0 : ℝ) < 1 ∧ (1 : ℝ) ≠ 0 ∧ (0 : ℝ) ≤ 1 ∧ (0 : ℝ) ∈ Set.Icc (0 : ℝ) 1 ∧
    Motion.speed_poly MotionType.jerked
      (((⟨⟨0, -1, 0, 0, ((0 : ℝ) : WithTop ℝ), 0⟩, ReelState.rest, 1, 0, 0⟩ :
          ReelMotion).stop_in 0 1).toSpeedLimitedMotion.toM) 0 < 0 := by
  refine ⟨by norm_num, by norm_num, by norm_num, by norm_num, ?_⟩
  simp [Motion.speed_poly, Motion.get_speed, Motion.get_acceleration, Motion.get_jerk,
    MotionType.ord, ReelMotion.stop_in, SpeedLimitedMotion.toM]

/-- C1 (amended by requiring the current speed to be non-negative): after
`stop_in(target, t)` the stored jerk and acceleration are exactly the
closed-form solution with `k = ⌈(v·t/3 + pos − target)/length⌉`, and the
planned polynomial reaches `target + k·length` at time `t` with speed exactly
0, never dipping below zero speed on `[0, t]`. -/
theorem stop_in_exact_landing (r : ReelMotion) (s1 t : ℝ)
    (hl : 0 < r.m_length) (ht : t ≠ 0) (hs1 : s1 ≤ r.m_length) (hv : 0 ≤ r.speed) :
    r.stop_in_k s1 t = ⌈(r.speed * t / 3 + r.position - s1) / r.m_length⌉ ∧
    (r.stop_in s1 t).jerk =
      12 * (r.position - s1 - ((r.stop_in_k s1 t : ℤ) : ℝ) * r.m_length +
        r.speed * t / 2) / (t * t * t) ∧
    (r.stop_in s1 t).acceleration = -r.speed / t - (r.stop_in s1 t).jerk * t / 2 ∧
    (Motion.advance MotionType.jerked (r.stop_in s1 t).toSpeedLimitedMotion.toM t).position =
      s1 + ((r.stop_in_k s1 t : ℤ) : ℝ) * r.m_length ∧
    (Motion.advance MotionType.jerked (r.stop_in s1 t).toSpeedLimitedMotion.toM t).speed = 0 ∧
    ∀ τ ∈ Set.Icc (0 : ℝ) t,
      0 ≤ Motion.speed_poly MotionType.jerked (r.stop_in s1 t).toSpeedLimitedMotion.toM τ := by
  have hk : (r.stop_in_k s1 t : ℝ) =
      ((⌈(r.speed * t / 3 + r.position - s1) / r.m_length⌉ : ℤ) : ℝ) := rfl
  refine ⟨rfl, rfl, rfl, ?_, ?_, ?_⟩
  · simp only [Motion.advance, Motion.get_position, Motion.get_speed,
      Motion.get_acceleration, Motion.get_jerk, Motion.set_positon, Motion.set_speed,
      Motion.set_acceleration, MotionType.ord, ReelMotion.stop_in,
      SpeedLimitedMotion.toM, ReelMotion.stop_in_k]
    norm_num
    field_simp
    ring
  · simp only [Motion.advance, Motion.get_position, Motion.get_speed,
      Motion.get_acceleration, Motion.get_jerk, Motion.set_positon, Motion.set_speed,
      Motion.set_acceleration, MotionType.ord, ReelMotion.stop_in,
      SpeedLimitedMotion.toM]
    norm_num
    field_simp
  · intro τ hτ
    obtain ⟨h1, h2⟩ := hτ
    have ht' : 0 < t := lt_of_le_of_ne (le_trans h1 h2) (Ne.symm ht)
    set v := r.speed with hvdef
    set s0 := r.position with hs0def
    set l := r.m_length with hldef
    set k : ℝ := ((⌈(v * t / 3 + s0 - s1) / l⌉ : ℤ) : ℝ) with hkdef
    set J : ℝ := 12 * (s0 - s1 - k * l + v * t / 2) / (t * t * t) with hJdef
    have hceil : (v * t / 3 + s0 - s1) / l ≤ k := Int.le_ceil _
    have hnum : s0 - s1 - k * l + v * t / 2 ≤ v * t / 6 := by
      have := (div_le_iff₀ hl).mp hceil
      nlinarith [this]
    have hj2 : J * t ^ 2 ≤ 2 * v := by
      have hexp : J * t ^ 2 = 12 * (s0 - s1 - k * l + v * t / 2) / t := by
        rw [hJdef]
        field_simp
        ring
      rw [hexp, div_le_iff₀ ht']
      nlinarith [hnum]
    have hpoly : Motion.speed_poly MotionType.jerked
        (r.stop_in s1 t).toSpeedLimitedMotion.toM τ =
        v + (-v / t - J * t / 2) * τ + J * τ ^ 2 / 2 := by
      simp only [Motion.speed_poly, Motion.get_speed, Motion.get_acceleration,
        Motion.get_jerk, MotionType.ord, ReelMotion.stop_in, SpeedLimitedMotion.toM]
      norm_num
    rw [hpoly]
    have hfac : (v + (-v / t - J * t / 2) * τ + J * τ ^ 2 / 2) * t =
        (t - τ) * (v - J * t * τ / 2) := by
      field_simp
      ring
    have hsecond : 0 ≤ v - J * t * τ / 2 := by
      nlinarith [mul_le_mul_of_nonneg_right hj2 h1, mul_nonneg hv (sub_nonneg.mpr h2),
        mul_pos ht' ht']
    have hmul : 0 ≤ (v + (-v / t - J * t / 2) * τ + J * τ ^ 2 / 2) * t := by
      rw [hfac]
      exact mul_nonneg (sub_nonneg.mpr h2) hsecond
    nlinarith [hmul, ht']

/-- Witness for C1 (amended): a reel of length 1 at position 0 with speed 1
lands exactly (zero speed) at `t = 1`. -/
theorem stop_in_exact_landing_witness :
    (Motion.advance MotionType.jerked
      (((⟨⟨0, 1, 0, 0, ((0 : ℝ) : WithTop ℝ), 0⟩, ReelState.rest, 1, 0, 0⟩ :
          ReelMotion).stop_in 0 1).toSpeedLimitedMotion.toM) 1).speed = 0 := by
  have h := stop_in_exact_landing
    (⟨⟨0, 1, 0, 0, ((0 : ℝ) : WithTop ℝ), 0⟩, ReelState.rest, 1, 0, 0⟩ : ReelMotion)
    0 1 (by norm_num) (by norm_num) (by norm_num) (by norm_num)
  exact h.2.2.2.2.1

/-- The predicted stop time of `cexSLM` (speed 1, acceleration −1): 1. -/
theorem cexSLM_time_to_stop :
    Motion.time_to_speed MotionType.jerked cexSLM.toM 0 = (Xf.fin 1, Xf.inf) := by
  have hq : quad_equation (Motion.get_jerk MotionType.jerked cexSLM.toM / 2)
      (Motion.get_acceleration MotionType.jerked cexSLM.toM)
      (Motion.get_speed MotionType.jerked cexSLM.toM) = (Xf.fin 1, Xf.nan) := by
    norm_num [quad_equation, Motion.get_jerk, Motion.get_acceleration, Motion.get_speed,
      MotionType.ord, SpeedLimitedMotion.toM, cexSLM]
  norm_num [Motion.time_to_speed, hq]

/-- `cexSLM` never reaches its max speed 10 (it is decelerating). -/
theorem cexSLM_time_to_max :
    Motion.time_to_speed MotionType.jerked cexSLM.toM 10 = (Xf.inf, Xf.inf) := by
  have hq : quad_equation (Motion.get_jerk MotionType.jerked cexSLM.toM / 2)
      (Motion.get_acceleration MotionType.jerked cexSLM.toM)
      (Motion.get_speed MotionType.jerked cexSLM.toM - 10) = (Xf.fin (-9), Xf.nan) := by
    norm_num [quad_equation, Motion.get_jerk, Motion.get_acceleration, Motion.get_speed,
      MotionType.ord, SpeedLimitedMotion.toM, cexSLM]
  norm_num [Motion.time_to_speed, hq]

/-- One bounded step of length 1 on `cexSLM` is a plain jerk step landing at
speed exactly 0. -/
theorem cexSLM_advance :
    cexSLM.advance 1 = ⟨2.9, 0, -1, 0, ((10 : ℝ) : WithTop ℝ), 0⟩ := by
  have h1 : cexSLM.times_to_bound cexSLM.m_max_speed = (⊤, ⊤) := by
    show cexSLM.times_to_bound (((10 : ℝ)) : WithTop ℝ) = (⊤, ⊤)
    simp [SpeedLimitedMotion.times_to_bound, cexSLM_time_to_max, SpeedLimitedMotion.xfTime]
  have h2 : cexSLM.times_to_bound ((cexSLM.m_min_speed : ℝ) : WithTop ℝ) =
      (((1 : ℝ) : WithTop ℝ), ⊤) := by
    show cexSLM.times_to_bound (((0 : ℝ)) : WithTop ℝ) = (((1 : ℝ) : WithTop ℝ), ⊤)
    simp [SpeedLimitedMotion.times_to_bound, cexSLM_time_to_stop, SpeedLimitedMotion.xfTime]
  rw [SpeedLimitedMotion.advance, h1, h2]
  have hsorted : ([⟨⊤, cexSLM.m_max_speed⟩, ⟨⊤, cexSLM.m_max_speed⟩,
      ⟨((1 : ℝ) : WithTop ℝ), ((cexSLM.m_min_speed : ℝ) : WithTop ℝ)⟩,
      ⟨⊤, ((cexSLM.m_min_speed : ℝ) : WithTop ℝ)⟩] :
        List SpeedLimitedMotion.ExtremumHit).insertionSort (fun x y => x.time ≤ y.time) =
      [⟨((1 : ℝ) : WithTop ℝ), ((cexSLM.m_min_speed : ℝ) : WithTop ℝ)⟩,
        ⟨⊤, cexSLM.m_max_speed⟩, ⟨⊤, cexSLM.m_max_speed⟩,
        ⟨⊤, ((cexSLM.m_min_speed : ℝ) : WithTop ℝ)⟩] := by
    simp [List.insertionSort, List.orderedInsert]
  rw [hsorted]
  rw [SpeedLimitedMotion.walk]
  norm_num [SpeedLimitedMotion.step, SpeedLimitedMotion.jerk_advance, cexSLM]

/-- Counterexample for C6: in the moving reel `cexReel` of length 2.5 the stop
is detected within the step (`stop time 1 ≤ dt = 1`) and the controller comes
to rest, but the wrapped position `round(2.9) − floor(3/2.5)·2.5 = 0.5` is not
a whole number: the wrap after rounding breaks wholeness for non-integer reel
lengths. -/
theorem reel_full_stop_nonwhole_cex :
    cexReel.m_state = ReelState.moving ∧ (1 : ℝ) ≠ 0 ∧
    (Motion.time_to_speed MotionType.jerked cexReel.toSpeedLimitedMotion.toM 0).1 =
      Xf.fin 1 ∧
    (1 : ℝ) ≤ 1 ∧
    (cexReel.advance 1).speed = 0 ∧
    (cexReel.advance 1).position = 1 / 2 ∧
    ((⌊(cexReel.advance 1).position⌋ : ℤ) : ℝ) ≠ (cexReel.advance 1).position := by
  have htts : (Motion.time_to_speed MotionType.jerked cexReel.toSpeedLimitedMotion.toM 0).1 =
      Xf.fin 1 := by
    show (Motion.time_to_speed MotionType.jerked cexSLM.toM 0).1 = Xf.fin 1
    rw [cexSLM_time_to_stop]
  have hadv : cexReel.advance 1 =
      ⟨⟨1 / 2, 0, 0, 0, ((10 : ℝ) : WithTop ℝ), 0⟩, ReelState.rest, 2.5, 0, 0⟩ := by
    rw [ReelMotion.advance]
    rw [if_neg (by norm_num : ¬(1 : ℝ) = 0)]
    have hst : cexReel.m_state = ReelState.moving := rfl
    rw [hst]
    simp only []
    rw [show cexReel.toSpeedLimitedMotion = cexSLM from rfl, cexSLM_time_to_stop]
    simp only []
    rw [if_pos (by norm_num : (1 : ℝ) ≤ 1)]
    rw [cexSLM_advance]
    simp only [ReelMotion.withMotion, ReelMotion.full_stop, ReelMotion.position_wrap]
    norm_num [cexReel]
    have hcr' : cround ((29 : ℝ) / 10) = 3 := by
      have hfl : ⌊(29 : ℝ) / 10 + 1 / 2⌋ = (3 : ℤ) := by
        rw [Int.floor_eq_iff] <;> norm_num
      norm_num [cround, hfl]
    rw [hcr']
    have hwfl' : ⌊(3 : ℝ) / (5 / 2)⌋ = (1 : ℤ) := by
      rw [Int.floor_eq_iff] <;> norm_num
    rw [hwfl']
    norm_num
  refine ⟨rfl, by norm_num, htts, le_refl 1, ?_, ?_, ?_⟩
  · rw [hadv]
  · rw [hadv]
  · rw [hadv]
    have : ⌊(1 : ℝ) / 2⌋ = (0 : ℤ) := by
      rw [Int.floor_eq_iff] <;> norm_num
    norm_num [this]

/-- C6 (amended by requiring a whole-number reel length): whenever `advance`
in the `Moving` state detects that speed 0 is reached within the step
(`stop_time ≤ dt`, `dt ≠ 0`), the resulting state has speed, acceleration and
jerk exactly 0 and, provided `m_length` is a whole number, a whole-number
position. -/
theorem reel_full_stop_normalization (r : ReelMotion) (dt st : ℝ) (n : ℤ)
    (hstate : r.m_state = ReelState.moving) (hdt : dt ≠ 0)
    (hlen : r.m_length = (n : ℝ))
    (hst : (Motion.time_to_speed MotionType.jerked r.toSpeedLimitedMotion.toM 0).1 =
      Xf.fin st)
    (hstdt : st ≤ dt) :
    (r.advance dt).speed = 0 ∧ (r.advance dt).acceleration = 0 ∧
    (r.advance dt).jerk = 0 ∧ ∃ m : ℤ, (r.advance dt).position = (m : ℝ) := by
  have hadv : r.advance dt =
      ((r.withMotion (r.toSpeedLimitedMotion.advance st)).full_stop).position_wrap := by
    rw [ReelMotion.advance, if_neg hdt, hstate]
    simp only []
    rw [hst]
    simp only []
    rw [if_pos hstdt]
  rw [hadv]
  refine ⟨rfl, rfl, rfl, ?_⟩
  simp only [ReelMotion.position_wrap, ReelMotion.full_stop, ReelMotion.withMotion]
  obtain ⟨z, hz⟩ : ∃ z : ℤ,
      cround ((r.toSpeedLimitedMotion.advance st).position) = (z : ℝ) := by
    unfold cround
    split_ifs
    · exact ⟨-⌊-(r.toSpeedLimitedMotion.advance st).position + 1 / 2⌋, by push_cast; ring⟩
    · exact ⟨⌊(r.toSpeedLimitedMotion.advance st).position + 1 / 2⌋, rfl⟩
  rw [hz, hlen]
  exact ⟨z - ⌊(z : ℝ) / (n : ℝ)⌋ * n, by push_cast; ring⟩

/-- Witness for C6 (amended): a moving reel of whole length 3 with speed 1 and
acceleration −1 (stop predicted at time 1 ≤ dt = 1). -/
theorem reel_full_stop_normalization_witness :
    ((⟨⟨0, 1, -1, 0, ((10 : ℝ) : WithTop ℝ), 0⟩, ReelState.moving, 3, 0, 0⟩ :
        ReelMotion).advance 1).speed = 0 ∧
    ∃ m : ℤ,
      ((⟨⟨0, 1, -1, 0, ((10 : ℝ) : WithTop ℝ), 0⟩, ReelState.moving, 3, 0, 0⟩ :
          ReelMotion).advance 1).position = (m : ℝ) := by
  have hst : (Motion.time_to_speed MotionType.jerked
      ((⟨⟨0, 1, -1, 0, ((10 : ℝ) : WithTop ℝ), 0⟩, ReelState.moving, 3, 0, 0⟩ :
        ReelMotion).toSpeedLimitedMotion.toM) 0).1 = Xf.fin 1 := by
    have hq : quad_equation
        (Motion.get_jerk MotionType.jerked
          (⟨0, 1, -1, 0⟩ : MState) / 2)
        (Motion.get_acceleration MotionType.jerked (⟨0, 1, -1, 0⟩ : MState))
        (Motion.get_speed MotionType.jerked (⟨0, 1, -1, 0⟩ : MState)) =
        (Xf.fin 1, Xf.nan) := by
      norm_num [quad_equation, Motion.get_jerk, Motion.get_acceleration,
        Motion.get_speed, MotionType.ord]
    show (Motion.time_to_speed MotionType.jerked (⟨0, 1, -1, 0⟩ : MState) 0).1 = Xf.fin 1
    norm_num [Motion.time_to_speed, hq]
  have h := reel_full_stop_normalization
    (⟨⟨0, 1, -1, 0, ((10 : ℝ) : WithTop ℝ), 0⟩, ReelState.moving, 3, 0, 0⟩ : ReelMotion)
    1 1 3 rfl (by norm_num) (by norm_num) hst (le_refl 1)
  exact ⟨h.1, h.2.2.2⟩

/-- The speed polynomial of a jerked motion as the quadratic the solver is
given (`quad_equation (j/2) a (v0 - v1)`). -/
theorem speed_poly_jerked_eq (m : MState) (v1 τ : ℝ) :
    (Motion.speed_poly MotionType.jerked m τ = v1 ↔
      m.jerk / 2 * (τ * τ) + m.acceleration * τ + (m.speed - v1) = 0) := by
  unfold Motion.speed_poly Motion.get_speed Motion.get_acceleration Motion.get_jerk
  norm_num [MotionType.ord]
  constructor <;> intro h <;> nlinarith [h]

/-- `time_to_speed` for the jerked order, with the getters unfolded. -/
theorem time_to_speed_jerked_eq (m : MState) (v1 : ℝ) :
    Motion.time_to_speed MotionType.jerked m v1 =
      (match quad_equation (m.jerk / 2) m.acceleration (m.speed - v1) with
       | (Xf.nan, _) => (Xf.inf, Xf.inf)
       | (Xf.fin x, Xf.nan) => if x < 0 then (Xf.inf, Xf.inf) else (Xf.fin x, Xf.inf)
       | (Xf.inf, Xf.nan) => (Xf.inf, Xf.inf)
       | (Xf.ninf, Xf.nan) => (Xf.inf, Xf.inf)
       | (Xf.fin x, Xf.fin y) =>
         if max x y < 0 then (Xf.inf, Xf.inf)
         else if min x y < 0 then (Xf.fin (max x y), Xf.inf)
         else (Xf.fin (min x y), Xf.fin (max x y))
       | (_, _) => (Xf.inf, Xf.inf)) := rfl

/-- Shape helper: output `(∞, ∞)` with no non-negative root. -/
theorem tts_shapeA (mt : MotionType) (m : MState) (v1 : ℝ)
    (hout : Motion.time_to_speed mt m v1 = (Xf.inf, Xf.inf))
    (hnr : ∀ τ, 0 ≤ τ → Motion.speed_poly mt m τ ≠ v1) :
    TimeToSpeedSpec mt m v1 ∧
      TimeToSpeedComplete mt m v1 := by
  constructor
  · refine ⟨Or.inl (by rw [hout]), ⟨fun _ => hnr, fun _ => by rw [hout]⟩, ?_, Or.inl (by rw [hout]), ?_, ?_⟩
    · intro τ hτ
      rw [hout] at hτ
      exact absurd hτ (by simp)
    · intro σ hσ
      rw [hout] at hσ
      exact absurd hσ (by simp)
    · rintro ⟨τ1, τ2, h1, h2, h3, h4, h5⟩
      exact absurd h3 (hnr τ1 h1)
  · intro τ hτ hroot
    exact absurd hroot (hnr τ hτ)

/-- Shape helper: output `(r, ∞)` where `r` is the unique non-negative root. -/
theorem tts_shapeB (mt : MotionType) (m : MState) (v1 r : ℝ)
    (hout : Motion.time_to_speed mt m v1 = (Xf.fin r, Xf.inf))
    (hr0 : 0 ≤ r) (hroot : Motion.speed_poly mt m r = v1)
    (hcomp : ∀ τ, 0 ≤ τ → Motion.speed_poly mt m τ = v1 → τ = r) :
    TimeToSpeedSpec mt m v1 ∧
      TimeToSpeedComplete mt m v1 := by
  constructor
  · refine ⟨Or.inr ⟨r, by rw [hout]⟩, ?_, ?_, Or.inl (by rw [hout]), ?_, ?_⟩
    · constructor
      · intro h
        rw [hout] at h
        exact absurd h (by simp)
      · intro h
        exact absurd hroot (h r hr0)
    · intro τ hτ
      rw [hout] at hτ
      have hrτ : r = τ := by simpa using hτ
      subst hrτ
      exact ⟨hr0, hroot, fun σ hσ hσr => le_of_eq (hcomp σ hσ hσr).symm⟩
    · intro σ hσ
      rw [hout] at hσ
      exact absurd hσ (by simp)
    · rintro ⟨τ1, τ2, h1, h2, h3, h4, h5⟩
      exfalso
      have e1 : τ1 = r := hcomp τ1 h1 h3
      have e2 : τ2 = r := hcomp τ2 (le_trans h1 (le_of_lt h2)) h4
      rw [e1, e2] at h2
      exact lt_irrefl r h2
  · intro τ hτ hroot'
    left
    rw [hout]
    rw [hcomp τ hτ hroot']

/-- Shape helper: output `(r1, r2)` where `r1 < r2` are the two roots, both
non-negative. -/
theorem tts_shapeC (mt : MotionType) (m : MState) (v1 r1 r2 : ℝ)
    (hout : Motion.time_to_speed mt m v1 = (Xf.fin r1, Xf.fin r2))
    (h0 : 0 ≤ r1) (hlt : r1 < r2)
    (hroot1 : Motion.speed_poly mt m r1 = v1)
    (hroot2 : Motion.speed_poly mt m r2 = v1)
    (hcomp : ∀ τ, Motion.speed_poly mt m τ = v1 → τ = r1 ∨ τ = r2) :
    TimeToSpeedSpec mt m v1 ∧
      TimeToSpeedComplete mt m v1 := by
  constructor
  · refine ⟨Or.inr ⟨r1, by rw [hout]⟩, ?_, ?_, Or.inr ⟨r2, by rw [hout]⟩, ?_, ?_⟩
    · constructor
      · intro h
        rw [hout] at h
        exact absurd h (by simp)
      · intro h
        exact absurd hroot1 (h r1 h0)
    · intro τ hτ
      rw [hout] at hτ
      have hrτ : r1 = τ := by simpa using hτ
      subst hrτ
      refine ⟨h0, hroot1, ?_⟩
      intro σ hσ hσr
      rcases hcomp σ hσr with h | h
      · exact le_of_eq h.symm
      · rw [h]; exact le_of_lt hlt
    · intro σ hσ
      rw [hout] at hσ
      have hrσ : r2 = σ := by simpa using hσ
      subst hrσ
      refine ⟨le_trans h0 (le_of_lt hlt), hroot2, ?_, ⟨r1, by rw [hout], hlt⟩⟩
      intro ρ hρ hρr
      rcases hcomp ρ hρr with h | h
      · rw [h]; exact le_of_lt hlt
      · exact le_of_eq h
    · intro _
      exact ⟨r2, by rw [hout]⟩
  · intro τ hτ hroot'
    rcases hcomp τ hroot' with h | h
    · left
      rw [hout, h]
    · right
      rw [hout, h]

/-- `time_to_speed` for a jerked motion is a complete and correct root
reporter, away from the degenerate constant-polynomial case
(`j = a = 0 ∧ v₀ = v1`, where the solver's "all reals" marker is returned as
the infinity sentinel). -/
theorem tts_jerked_master (m : MState) (v1 : ℝ)
    (hdeg : ¬(m.jerk = 0 ∧ m.acceleration = 0 ∧ m.speed = v1)) :
    TimeToSpeedSpec MotionType.jerked m v1 ∧
      TimeToSpeedComplete MotionType.jerked m v1 := by
  by_cases hj : m.jerk = 0
  · by_cases ha : m.acceleration = 0
    · have hv : ¬m.speed = v1 := fun h => hdeg ⟨hj, ha, h⟩
      have hq : quad_equation (m.jerk / 2) m.acceleration (m.speed - v1) =
          (Xf.nan, Xf.nan) := by
        rw [hj, ha]
        norm_num [quad_equation, sub_eq_zero, hv]
      have hout : Motion.time_to_speed MotionType.jerked m v1 = (Xf.inf, Xf.inf) := by
        rw [time_to_speed_jerked_eq, hq]
      refine tts_shapeA MotionType.jerked m v1 hout ?_
      intro τ _ hroot
      have := (speed_poly_jerked_eq m v1 τ).mp hroot
      rw [hj, ha] at this
      apply hv
      linarith [this]
    · have hq : quad_equation (m.jerk / 2) m.acceleration (m.speed - v1) =
          (Xf.fin (-(m.speed - v1) / m.acceleration), Xf.nan) := by
        rw [hj]
        norm_num [quad_equation, ha]
      have hroot : Motion.speed_poly MotionType.jerked m
          (-(m.speed - v1) / m.acceleration) = v1 := by
        rw [speed_poly_jerked_eq, hj]
        field_simp
      have huniq : ∀ τ, Motion.speed_poly MotionType.jerked m τ = v1 →
          τ = -(m.speed - v1) / m.acceleration := by
        intro τ hτ
        have := (speed_poly_jerked_eq m v1 τ).mp hτ
        rw [hj] at this
        field_simp
        linarith [this]
      rcases lt_or_le (-(m.speed - v1) / m.acceleration) 0 with hr | hr
      · have hr2 : (v1 - m.speed) / m.acceleration < 0 := by
          rw [show v1 - m.speed = -(m.speed - v1) by ring]
          exact hr
        have hout : Motion.time_to_speed MotionType.jerked m v1 = (Xf.inf, Xf.inf) := by
          rw [time_to_speed_jerked_eq, hq]
          simp [hr2]
        refine tts_shapeA MotionType.jerked m v1 hout ?_
        intro τ hτ hroot'
        have := huniq τ hroot'
        linarith [this, hτ]
      · have hr2 : ¬(v1 - m.speed) / m.acceleration < 0 := by
          rw [show v1 - m.speed = -(m.speed - v1) by ring]
          exact not_lt.mpr hr
        have hout : Motion.time_to_speed MotionType.jerked m v1 =
            (Xf.fin (-(m.speed - v1) / m.acceleration), Xf.inf) := by
          rw [time_to_speed_jerked_eq, hq]
          simp [hr2]
        exact tts_shapeB MotionType.jerked m v1 _ hout hr hroot fun τ _ hτ => huniq τ hτ
  · have hj2 : m.jerk / 2 ≠ 0 := div_ne_zero hj two_ne_zero
    rcases lt_trichotomy 0
        (m.acceleration * m.acceleration - 4 * (m.jerk / 2) * (m.speed - v1)) with
      hdpos | hdzero | hdneg
    · set d := m.acceleration * m.acceleration - 4 * (m.jerk / 2) * (m.speed - v1)
        with hd
      set x := (-m.acceleration + Real.sqrt d) / (2 * (m.jerk / 2)) with hx
      set y := (-m.acceleration - Real.sqrt d) / (2 * (m.jerk / 2)) with hy
      have hq : quad_equation (m.jerk / 2) m.acceleration (m.speed - v1) =
          (Xf.fin x, Xf.fin y) := by
        rw [quad_equation, if_neg hj2]
        simp only [← hd, if_pos hdpos]
      have hdisc : discrim (m.jerk / 2) m.acceleration (m.speed - v1) =
          Real.sqrt d * Real.sqrt d := by
        rw [Real.mul_self_sqrt (le_of_lt hdpos), discrim, hd]
        ring
      have hiff : ∀ τ, Motion.speed_poly MotionType.jerked m τ = v1 ↔ τ = x ∨ τ = y :=
        fun τ => (speed_poly_jerked_eq m v1 τ).trans
          (quadratic_eq_zero_iff hj2 hdisc τ)
      have hsqpos : 0 < Real.sqrt d := Real.sqrt_pos.mpr hdpos
      have hxy : x ≠ y := by
        have hsub : x - y = Real.sqrt d / (m.jerk / 2) := by
          rw [hx, hy]
          field_simp
          ring
        intro h
        rw [h, sub_self] at hsub
        exact div_ne_zero (ne_of_gt hsqpos) hj2 hsub.symm
      have hmnmx : min x y < max x y := min_lt_max.mpr hxy
      have hrootmn : Motion.speed_poly MotionType.jerked m (min x y) = v1 := by
        rcases min_choice x y with h | h <;> rw [h] <;> rw [hiff] <;> simp
      have hrootmx : Motion.speed_poly MotionType.jerked m (max x y) = v1 := by
        rcases max_choice x y with h | h <;> rw [h] <;> rw [hiff] <;> simp
      rcases lt_or_le (max x y) 0 with hmx | hmx
      · have hout : Motion.time_to_speed MotionType.jerked m v1 = (Xf.inf, Xf.inf) := by
          rw [time_to_speed_jerked_eq, hq]
          simp [hmx]
        refine tts_shapeA MotionType.jerked m v1 hout ?_
        intro τ hτ hroot'
        rcases (hiff τ).mp hroot' with h | h <;> rw [h] at hτ
        · exact absurd (lt_of_le_of_lt (le_max_left x y) hmx) (not_lt.mpr hτ)
        · exact absurd (lt_of_le_of_lt (le_max_right x y) hmx) (not_lt.mpr hτ)
      · rcases lt_or_le (min x y) 0 with hmn | hmn
        · have hout : Motion.time_to_speed MotionType.jerked m v1 =
              (Xf.fin (max x y), Xf.inf) := by
            rw [time_to_speed_jerked_eq, hq]
            simp [not_lt.mpr hmx, hmn]
          refine tts_shapeB MotionType.jerked m v1 (max x y) hout hmx hrootmx ?_
          intro τ hτ hroot'
          rcases le_total x y with hle | hle
          · rw [min_eq_left hle] at hmn
            rw [max_eq_right hle]
            rcases (hiff τ).mp hroot' with h | h
            · exact absurd (h ▸ hτ) (not_le.mpr hmn)
            · exact h
          · rw [min_eq_right hle] at hmn
            rw [max_eq_left hle]
            rcases (hiff τ).mp hroot' with h | h
            · exact h
            · exact absurd (h ▸ hτ) (not_le.mpr hmn)
        · have hout : Motion.time_to_speed MotionType.jerked m v1 =
              (Xf.fin (min x y), Xf.fin (max x y)) := by
            rw [time_to_speed_jerked_eq, hq]
            simp [not_lt.mpr hmx, not_lt.mpr hmn]
          refine tts_shapeC MotionType.jerked m v1 (min x y) (max x y) hout hmn hmnmx hrootmn hrootmx ?_
          intro τ hroot'
          rcases le_total x y with hle | hle
          · rw [min_eq_left hle, max_eq_right hle]
            exact (hiff τ).mp hroot'
          · rw [min_eq_right hle, max_eq_left hle]
            exact ((hiff τ).mp hroot').symm
    · have hq : quad_equation (m.jerk / 2) m.acceleration (m.speed - v1) =
          (Xf.fin (-m.acceleration / (2 * (m.jerk / 2))), Xf.nan) := by
        rw [quad_equation, if_neg hj2]
        simp only [if_neg (show ¬(0 : ℝ) < m.acceleration * m.acceleration -
          4 * (m.jerk / 2) * (m.speed - v1) by linarith),
          if_pos (show m.acceleration * m.acceleration -
            4 * (m.jerk / 2) * (m.speed - v1) = 0 by linarith)]
      have hdisc : discrim (m.jerk / 2) m.acceleration (m.speed - v1) = 0 := by
        rw [discrim]
        nlinarith [hdzero]
      have hiff : ∀ τ, Motion.speed_poly MotionType.jerked m τ = v1 ↔
          τ = -m.acceleration / (2 * (m.jerk / 2)) :=
        fun τ => (speed_poly_jerked_eq m v1 τ).trans
          (quadratic_eq_zero_iff_of_discrim_eq_zero hj2 hdisc τ)
      rcases lt_or_le (-m.acceleration / (2 * (m.jerk / 2))) 0 with hr | hr
      · have hout : Motion.time_to_speed MotionType.jerked m v1 = (Xf.inf, Xf.inf) := by
          rw [time_to_speed_jerked_eq, hq]
          simp [hr]
        refine tts_shapeA MotionType.jerked m v1 hout ?_
        intro τ hτ hroot'
        have := (hiff τ).mp hroot'
        rw [this] at hτ
        exact absurd hr (not_lt.mpr hτ)
      · have hout : Motion.time_to_speed MotionType.jerked m v1 =
            (Xf.fin (-m.acceleration / (2 * (m.jerk / 2))), Xf.inf) := by
          rw [time_to_speed_jerked_eq, hq]
          simp [not_lt.mpr hr]
        refine tts_shapeB MotionType.jerked m v1 _ hout hr ((hiff _).mpr rfl) ?_
        intro τ _ hroot'
        exact (hiff τ).mp hroot'
    · have hq : quad_equation (m.jerk / 2) m.acceleration (m.speed - v1) =
          (Xf.nan, Xf.nan) := by
        rw [quad_equation, if_neg hj2]
        simp only [if_neg (show ¬(0 : ℝ) < m.acceleration * m.acceleration -
          4 * (m.jerk / 2) * (m.speed - v1) by linarith),
          if_neg (show ¬m.acceleration * m.acceleration -
            4 * (m.jerk / 2) * (m.speed - v1) = 0 by linarith)]
      have hout : Motion.time_to_speed MotionType.jerked m v1 = (Xf.inf, Xf.inf) := by
        rw [time_to_speed_jerked_eq, hq]
      refine tts_shapeA MotionType.jerked m v1 hout ?_
      intro τ _ hroot'
      have hne : ∀ s : ℝ, discrim (m.jerk / 2) m.acceleration (m.speed - v1) ≠ s ^ 2 := by
        intro s
        rw [discrim]
        nlinarith [sq_nonneg s, hdneg]
      exact quadratic_ne_zero_of_discrim_ne_sq hne τ
        ((speed_poly_jerked_eq m v1 τ).mp hroot')

/-- Shape helper: output `(0, ∞)` when the speed polynomial is constantly
equal to the target (stationary with `v1 = 0`, uniform with `v1 = v₀`). -/
theorem tts_shapeConst (mt : MotionType) (m : MState) (v1 : ℝ)
    (hout : Motion.time_to_speed mt m v1 = (Xf.fin 0, Xf.inf))
    (hall : ∀ τ, Motion.speed_poly mt m τ = v1) :
    TimeToSpeedSpec mt m v1 := by
  refine ⟨Or.inr ⟨0, by rw [hout]⟩, ?_, ?_, Or.inl (by rw [hout]), ?_, ?_⟩
  · constructor
    · intro h
      rw [hout] at h
      exact absurd h (by simp)
    · intro h
      exact absurd (hall 0) (h 0 (le_refl 0))
  · intro τ hτ
    rw [hout] at hτ
    have h0τ : (0 : ℝ) = τ := by simpa using hτ
    subst h0τ
    exact ⟨le_refl 0, hall 0, fun σ hσ _ => hσ⟩
  · intro σ hσ
    rw [hout] at hσ
    exact absurd hσ (by simp)
  · rintro ⟨τ1, τ2, _, h2, _, _, h5⟩
    exfalso
    rcases h5 (τ2 + 1) (hall (τ2 + 1)) with h | h <;> linarith [h]

/-- The speed polynomial of the lower orders, with masked components. -/
theorem speed_poly_stationary (m : MState) (τ : ℝ) :
    Motion.speed_poly MotionType.stationary m τ = 0 := by
  simp [Motion.speed_poly, Motion.get_speed, Motion.get_acceleration, Motion.get_jerk,
    MotionType.ord]

theorem speed_poly_uniform (m : MState) (τ : ℝ) :
    Motion.speed_poly MotionType.uniform m τ = m.speed := by
  simp [Motion.speed_poly, Motion.get_speed, Motion.get_acceleration, Motion.get_jerk,
    MotionType.ord]

theorem speed_poly_accelerated (m : MState) (τ : ℝ) :
    Motion.speed_poly MotionType.accelerated m τ = m.speed + m.acceleration * τ := by
  simp [Motion.speed_poly, Motion.get_speed, Motion.get_acceleration, Motion.get_jerk,
    MotionType.ord]

theorem time_to_speed_accelerated_eq (m : MState) (v1 : ℝ) :
    Motion.time_to_speed MotionType.accelerated m v1 =
      (match fdivF (v1 - m.speed) m.acceleration with
       | Xf.fin t => if t < 0 then Xf.inf else Xf.fin t
       | Xf.ninf => Xf.inf
       | Xf.inf => Xf.inf
       | Xf.nan => Xf.nan, Xf.inf) := rfl

/-- Counterexample for C3: for a jerked motion with zero jerk and zero
acceleration whose speed already equals the target (speed polynomial
identically `v1`), `time_to_speed` returns the `+∞` sentinel in both slots —
produced from the solver's "infinitely many solutions" marker — although the
smallest non-negative solution time is `0`. -/
theorem time_to_speed_constant_sentinel_cex :
    Motion.time_to_speed MotionType.jerked (⟨0, 5, 0, 0⟩ : MState) 5 =
      (Xf.inf, Xf.inf) ∧
    Motion.speed_poly MotionType.jerked (⟨0, 5, 0, 0⟩ : MState) 0 = 5 ∧
    (0 : ℝ) ≤ 0 := by
  refine ⟨?_, ?_, le_refl 0⟩
  · rw [time_to_speed_jerked_eq]
    norm_num [quad_equation]
  · norm_num [Motion.speed_poly, Motion.get_speed, Motion.get_acceleration,
      Motion.get_jerk, MotionType.ord]

/-- C3 (amended): away from the degenerate accelerated/jerked states whose
speed polynomial is identically `v1` (zero acceleration and jerk with speed
already at the target), `time_to_speed` reports the smallest non-negative
root as the primary result, the `+∞` sentinel when no non-negative root
exists, and fills the optional second output with the larger root exactly
when the polynomial has two roots, both non-negative (otherwise `+∞`). -/
theorem time_to_speed_spec (mt : MotionType) (m : MState) (v1 : ℝ)
    (hdeg : ¬((mt = MotionType.accelerated ∨ mt = MotionType.jerked) ∧
      Motion.get_acceleration mt m = 0 ∧ Motion.get_jerk mt m = 0 ∧
      Motion.get_speed mt m = v1)) :
    TimeToSpeedSpec mt m v1 := by
  cases mt with
  | stationary =>
    by_cases hv : v1 = 0
    · subst hv
      refine tts_shapeConst MotionType.stationary m 0 (by simp [Motion.time_to_speed]) ?_
      intro τ
      rw [speed_poly_stationary]
    · have hout : Motion.time_to_speed MotionType.stationary m v1 = (Xf.inf, Xf.inf) := by
        simp [Motion.time_to_speed, hv]
      refine (tts_shapeA MotionType.stationary m v1 hout ?_).1
      intro τ _ h
      rw [speed_poly_stationary] at h
      exact hv h.symm
  | uniform =>
    by_cases hv : v1 = Motion.get_speed MotionType.uniform m
    · refine tts_shapeConst MotionType.uniform m v1 ?_ ?_
      · simp [Motion.time_to_speed, hv]
      · intro τ
        rw [speed_poly_uniform]
        rw [hv]
        rfl
    · have hout : Motion.time_to_speed MotionType.uniform m v1 = (Xf.inf, Xf.inf) := by
        simp [Motion.time_to_speed, hv]
      refine (tts_shapeA MotionType.uniform m v1 hout ?_).1
      intro τ _ h
      rw [speed_poly_uniform] at h
      exact hv (by rw [← h]; rfl)
  | accelerated =>
    by_cases ha : m.acceleration = 0
    · have hv : ¬m.speed = v1 := fun hs => hdeg ⟨Or.inl rfl, ha, rfl, hs⟩
      have hne : ¬v1 - m.speed = 0 := fun h => hv (by linarith [sub_eq_zero.mp h])
      have hout : Motion.time_to_speed MotionType.accelerated m v1 =
          (Xf.inf, Xf.inf) := by
        rw [time_to_speed_accelerated_eq]
        rcases lt_or_gt_of_ne hne with h | h
        · simp [fdivF, ha, hne, not_lt.mpr (le_of_lt h)]
        · simp [fdivF, ha, hne, h]
      refine (tts_shapeA MotionType.accelerated m v1 hout ?_).1
      intro τ _ h
      rw [speed_poly_accelerated, ha] at h
      exact hv (by linarith [h])
    · have hfd : fdivF (v1 - m.speed) m.acceleration =
          Xf.fin ((v1 - m.speed) / m.acceleration) := by
        simp [fdivF, ha]
      have hroot : Motion.speed_poly MotionType.accelerated m
          ((v1 - m.speed) / m.acceleration) = v1 := by
        rw [speed_poly_accelerated]
        field_simp
      have huniq : ∀ τ, Motion.speed_poly MotionType.accelerated m τ = v1 →
          τ = (v1 - m.speed) / m.acceleration := by
        intro τ hτ
        rw [speed_poly_accelerated] at hτ
        field_simp
        linarith [hτ]
      rcases lt_or_le ((v1 - m.speed) / m.acceleration) 0 with hr | hr
      · have hout : Motion.time_to_speed MotionType.accelerated m v1 =
            (Xf.inf, Xf.inf) := by
          rw [time_to_speed_accelerated_eq, hfd]
          simp [hr]
        refine (tts_shapeA MotionType.accelerated m v1 hout ?_).1
        intro τ hτ h
        have := huniq τ h
        linarith [this]
      · have hout : Motion.time_to_speed MotionType.accelerated m v1 =
            (Xf.fin ((v1 - m.speed) / m.acceleration), Xf.inf) := by
          rw [time_to_speed_accelerated_eq, hfd]
          simp [not_lt.mpr hr]
        exact (tts_shapeB MotionType.accelerated m v1 _ hout hr hroot
          fun τ _ h => huniq τ h).1
  | jerked =>
    refine (tts_jerked_master m v1 ?_).1
    rintro ⟨hj, ha, hs⟩
    exact hdeg ⟨Or.inr rfl, ha, hj, hs⟩

/-- Witness for C3 (amended) at the jerked state with speed 2, acceleration
−3, jerk 2 and target speed 0 (speed polynomial `(τ−1)(τ−2)`). -/
theorem time_to_speed_spec_witness :
    TimeToSpeedSpec MotionType.jerked (⟨0, 2, -3, 2⟩ : MState) 0 := by
  apply time_to_speed_spec
  rintro ⟨-, hB, -, -⟩
  norm_num [Motion.get_acceleration, MotionType.ord] at hB

namespace SpeedLimitedMotion

theorem spoly_eq_speed_poly (m : SpeedLimitedMotion) (τ : ℝ) :
    m.spoly τ = Motion.speed_poly MotionType.jerked m.toM τ := rfl

theorem spoly_zero (m : SpeedLimitedMotion) : m.spoly 0 = m.speed := by
  simp [spoly]

theorem apoly_zero (m : SpeedLimitedMotion) : m.apoly 0 = m.acceleration := by
  simp [apoly]

theorem spoly_continuous (m : SpeedLimitedMotion) : Continuous m.spoly := by
  unfold spoly
  fun_prop

/-- The jerk step follows the ambient polynomials. -/
theorem jerk_advance_flow (m0 m : SpeedLimitedMotion) (p s : ℝ)
    (hj : m.jerk = m0.jerk) (hv : m.speed = m0.spoly p)
    (ha : m.acceleration = m0.apoly p) :
    (m.jerk_advance s).speed = m0.spoly (p + s) ∧
      (m.jerk_advance s).acceleration = m0.apoly (p + s) := by
  unfold jerk_advance spoly apoly at *
  constructor
  · simp only [hv, ha, hj]
    ring
  · simp only [ha, hj]
    ring

theorem uniform_advance_flow (m0 m : SpeedLimitedMotion) (p s : ℝ)
    (hj : m.jerk = m0.jerk) (ha : m.acceleration = m0.apoly p) :
    (m.uniform_advance s).speed = m.speed ∧
      (m.uniform_advance s).acceleration = m0.apoly (p + s) := by
  unfold uniform_advance apoly at *
  constructor
  · rfl
  · simp only [ha, hj]
    ring

/-- `step` never touches the jerk or the bounds. -/
theorem step_frame (m : SpeedLimitedMotion) (t : ℝ) (val : WithTop ℝ)
    (prev : Option (WithTop ℝ)) (b : Bool) :
    (step m t val prev b).jerk = m.jerk ∧
      (step m t val prev b).m_min_speed = m.m_min_speed ∧
      (step m t val prev b).m_max_speed = m.m_max_speed := by
  refine ⟨?_, ?_, ?_⟩ <;>
    simp only [step, uniform_advance, jerk_advance] <;>
    split_ifs <;> rfl

end SpeedLimitedMotion

namespace SpeedLimitedMotion

/-- Upward crossing: the continuous speed polynomial takes every value
between its endpoint values strictly inside the interval. -/
theorem spoly_cross_up (m : SpeedLimitedMotion) (B p d : ℝ) (hpd : p ≤ d)
    (h1 : m.spoly p < B) (h2 : B < m.spoly d) :
    ∃ σ, p < σ ∧ σ < d ∧ m.spoly σ = B := by
  obtain ⟨σ, hσ, hval⟩ :=
    intermediate_value_Ioo hpd m.spoly_continuous.continuousOn ⟨h1, h2⟩
  exact ⟨σ, hσ.1, hσ.2, hval⟩

theorem spoly_cross_down (m : SpeedLimitedMotion) (B p d : ℝ) (hpd : p ≤ d)
    (h1 : m.spoly d < B) (h2 : B < m.spoly p) :
    ∃ σ, p < σ ∧ σ < d ∧ m.spoly σ = B := by
  obtain ⟨σ, hσ, hval⟩ :=
    intermediate_value_Ioo' hpd m.spoly_continuous.continuousOn ⟨h1, h2⟩
  exact ⟨σ, hσ.1, hσ.2, hval⟩

/-- Between two times at which a convex (positive-jerk) speed parabola takes
the value `B`, it stays at or below `B`. -/
theorem spoly_convex_le (m : SpeedLimitedMotion) (B p q d : ℝ) (hj : 0 < m.jerk)
    (hp : m.spoly p = B) (hq : m.spoly q = B) (hpd : p ≤ d) (hdq : d ≤ q) :
    m.spoly d ≤ B := by
  have key : (B - m.spoly d) * (q - p) =
      m.jerk / 2 * ((d - p) * (q - d) * (q - p)) +
        (q - d) * (B - m.spoly p) + (d - p) * (B - m.spoly q) := by
    unfold spoly
    ring
  rw [hp, hq, sub_self, mul_zero, mul_zero, add_zero, add_zero] at key
  rcases eq_or_lt_of_le (hpd.trans hdq) with hpq | hpq
  · have hdp : d = p := le_antisymm (hpq ▸ hdq) hpd
    rw [hdp, hp]
  · nlinarith [key, hj,
      mul_nonneg (mul_nonneg (sub_nonneg.mpr hpd) (sub_nonneg.mpr hdq))
        (sub_pos.mpr hpq).le]

/-- Between two times at which a concave (negative-jerk) speed parabola takes
the value `B`, it stays at or above `B`. -/
theorem spoly_concave_ge (m : SpeedLimitedMotion) (B p q d : ℝ) (hj : m.jerk < 0)
    (hp : m.spoly p = B) (hq : m.spoly q = B) (hpd : p ≤ d) (hdq : d ≤ q) :
    B ≤ m.spoly d := by
  have key : (B - m.spoly d) * (q - p) =
      m.jerk / 2 * ((d - p) * (q - d) * (q - p)) +
        (q - d) * (B - m.spoly p) + (d - p) * (B - m.spoly q) := by
    unfold spoly
    ring
  rw [hp, hq, sub_self, mul_zero, mul_zero, add_zero, add_zero] at key
  rcases eq_or_lt_of_le (hpd.trans hdq) with hpq | hpq
  · have hdp : d = p := le_antisymm (hpq ▸ hdq) hpd
    rw [hdp, hp]
  · nlinarith [key, hj,
      mul_nonneg (mul_nonneg (sub_nonneg.mpr hpd) (sub_nonneg.mpr hdq))
        (sub_pos.mpr hpq).le]

/-- The head of a time-sorted extremum list bounds every member's time. -/
theorem sorted_head_min {h : ExtremumHit} {rest : List ExtremumHit}
    (hs : List.Sorted (fun x y => x.time ≤ y.time) (h :: rest)) :
    ∀ x ∈ h :: rest, h.time ≤ x.time := by
  intro x hx
  rcases List.mem_cons.mp hx with hx | hx
  · rw [hx]
  · exact (List.sorted_cons.mp hs).1 x hx

/-- A walk over extremum hits that all carry an infinite time never changes
the speed. -/
theorem walk_top (dt : ℝ) :
    ∀ (L : List ExtremumHit) (m : SpeedLimitedMotion) (p : ℝ)
      (prev : Option (WithTop ℝ)),
      (∀ h ∈ L, h.time = ⊤) → (walk dt m p prev L).speed = m.speed := by
  intro L
  induction L with
  | nil =>
    intro m p prev _
    rw [walk]
    split_ifs <;> rfl
  | cons h rest ih =>
    intro m p prev hall
    have hh : h.time = ⊤ := hall h (List.mem_cons_self h rest)
    rw [walk]
    rw [hh]
    split_ifs <;> rfl

end SpeedLimitedMotion

namespace SpeedLimitedMotion

/-- Unfolding `walk` on the empty hit list. -/
theorem walk_nil (dt : ℝ) (m : SpeedLimitedMotion) (p : ℝ)
    (prev : Option (WithTop ℝ)) :
    walk dt m p prev [] = if p < dt then m.uniform_advance (dt - p) else m := by
  rw [walk]

/-- Unfolding `walk` on a head hit with infinite time. -/
theorem walk_cons_top (dt : ℝ) (m : SpeedLimitedMotion) (p : ℝ)
    (prev : Option (WithTop ℝ)) (h : ExtremumHit) (rest : List ExtremumHit)
    (ht : h.time = ⊤) :
    walk dt m p prev (h :: rest) =
      if p < dt then m.uniform_advance (dt - p) else m := by
  rw [walk, ht]

/-- Unfolding `walk` on a head hit with finite time. -/
theorem walk_cons_coe (dt : ℝ) (m : SpeedLimitedMotion) (p : ℝ)
    (prev : Option (WithTop ℝ)) (h : ExtremumHit) (rest : List ExtremumHit)
    (τ : ℝ) (ht : h.time = (τ : WithTop ℝ)) :
    walk dt m p prev (h :: rest) =
      if dt ≤ τ then step m (dt - p) h.value prev false
      else walk dt (step m (τ - p) h.value prev true) τ (some h.value) rest := by
  rw [walk, ht]

/-- The two observable outcomes of `step` on the speed and acceleration: the
clamped (uniform) branch fires only when the bound is already met, and the
full polynomial branch certifies `will_reduce` whenever the bound was met. -/
theorem step_cases (m : SpeedLimitedMotion) (t : ℝ) (val : WithTop ℝ)
    (prev : Option (WithTop ℝ)) (b : Bool) :
    ((step m t val prev b).speed = m.speed ∧
      (step m t val prev b).acceleration = m.acceleration + m.jerk * t ∧
      (if val = m.m_max_speed then m.m_max_speed ≤ (m.speed : WithTop ℝ)
       else m.speed ≤ m.m_min_speed)) ∨
    ((step m t val prev b).speed =
        (if b = true then val.untop' ((m.jerk_advance t).speed)
         else (m.jerk_advance t).speed) ∧
      (step m t val prev b).acceleration = m.acceleration + m.jerk * t ∧
      ((if val = m.m_max_speed then m.m_max_speed ≤ (m.speed : WithTop ℝ)
        else m.speed ≤ m.m_min_speed) →
        prev = some val ∧
          (if val = m.m_max_speed then 0 < m.jerk else m.jerk < 0))) := by
  rcases em ((if val = m.m_max_speed then m.m_max_speed ≤ (m.speed : WithTop ℝ)
      else m.speed ≤ m.m_min_speed) ∧
      ¬(prev = some val ∧
        (if val = m.m_max_speed then 0 < m.jerk else m.jerk < 0))) with hC | hC
  · left
    refine ⟨?_, ?_, hC.1⟩ <;> (simp only [step]; rw [if_pos hC]) <;> rfl
  · right
    refine ⟨?_, ?_, fun hie => of_not_not fun hnwr => hC ⟨hie, hnwr⟩⟩ <;>
      (simp only [step]; rw [if_neg hC]) <;> cases b <;>
        simp [jerk_advance]

/-- With zero jerk and zero acceleration the jerked `time_to_speed` never
reports a finite time: the speed polynomial is constant and the solver
returns either the marker or the no-root sentinel, both mapped to `(∞, ∞)`. -/
theorem tts_degenerate (m : MState) (v1 : ℝ) (hj : m.jerk = 0)
    (ha : m.acceleration = 0) :
    Motion.time_to_speed MotionType.jerked m v1 = (Xf.inf, Xf.inf) := by
  rw [time_to_speed_jerked_eq]
  by_cases hv : m.speed - v1 = 0
  · have hq : quad_equation (m.jerk / 2) m.acceleration (m.speed - v1) =
        (Xf.inf, Xf.nan) := by
      rw [hj, ha, hv]
      norm_num [quad_equation]
    rw [hq]
  · have hq : quad_equation (m.jerk / 2) m.acceleration (m.speed - v1) =
        (Xf.nan, Xf.nan) := by
      rw [hj, ha]
      norm_num [quad_equation, hv]
    rw [hq]

/-- `xfTime` takes a finite value exactly on finite solver results. -/
theorem xfTime_eq_coe (x : Xf) (τ : ℝ) :
    xfTime x = (τ : WithTop ℝ) ↔ x = Xf.fin τ := by
  cases x <;> simp [xfTime]

end SpeedLimitedMotion

namespace SpeedLimitedMotion

/-- Main invariant of the bounded integrator loop: with a strict corridor
`min < max`, a state whose speed/acceleration follow the reference polynomial
at time `p` and whose speed is inside the corridor, walked over a sorted hit
list that is sound (finite hits are corridor crossings at or after `p`) and
complete (every later crossing appears in the list), ends inside the
corridor. -/
theorem walk_bounds (m0 : SpeedLimitedMotion) (dt : ℝ)
    (hmm : (m0.m_min_speed : WithTop ℝ) < m0.m_max_speed) :
    ∀ (L : List ExtremumHit),
      List.Sorted (fun x y => x.time ≤ y.time) L →
      ∀ (m : SpeedLimitedMotion) (p : ℝ) (prev : Option (WithTop ℝ)),
        m.jerk = m0.jerk → m.m_min_speed = m0.m_min_speed →
        m.m_max_speed = m0.m_max_speed →
        m.speed = m0.spoly p → m.acceleration = m0.apoly p →
        0 ≤ p → p ≤ dt →
        m0.m_min_speed ≤ m.speed → (m.speed : WithTop ℝ) ≤ m0.m_max_speed →
        (∀ h ∈ L,
          (h.value = m0.m_max_speed ∨ h.value = (m0.m_min_speed : WithTop ℝ)) ∧
          ∀ τ : ℝ, h.time = (τ : WithTop ℝ) →
            p ≤ τ ∧ ((m0.spoly τ : ℝ) : WithTop ℝ) = h.value) →
        (∀ σ : ℝ, p < σ →
          (((m0.spoly σ : ℝ) : WithTop ℝ) = m0.m_max_speed ∨
            m0.spoly σ = m0.m_min_speed) →
          ∃ h ∈ L, h.time = (σ : WithTop ℝ)) →
        m0.m_min_speed ≤ (walk dt m p prev L).speed ∧
          ((walk dt m p prev L).speed : WithTop ℝ) ≤ m0.m_max_speed := by
  intro L
  induction L with
  | nil =>
    intro _ m p prev _ _ _ _ _ _ _ hlo hhi _ _
    rw [walk_nil]
    split_ifs
    · exact ⟨hlo, hhi⟩
    · exact ⟨hlo, hhi⟩
  | cons h rest ih =>
    intro hsort m p prev hjf hminf hmaxf hv ha hp0 hpd hlo hhi hsound hcomp
    by_cases htop : h.time = ⊤
    · rw [walk_cons_top dt m p prev h rest htop]
      split_ifs
      · exact ⟨hlo, hhi⟩
      · exact ⟨hlo, hhi⟩
    · obtain ⟨τ, hτeq⟩ := WithTop.ne_top_iff_exists.mp htop
      have htime : h.time = (τ : WithTop ℝ) := hτeq.symm
      rw [walk_cons_coe dt m p prev h rest τ htime]
      obtain ⟨hval_or, hτfacts⟩ := hsound h (List.mem_cons_self h rest)
      obtain ⟨hpτ, hvτ⟩ := hτfacts τ htime
      split_ifs with hdtτ
      · -- last sub-interval: partial advance to dt with no snap
        rcases step_cases m (dt - p) h.value prev false with
          ⟨hsp, -, -⟩ | ⟨hsp, -, himp⟩
        · rw [hsp]
          exact ⟨hlo, hhi⟩
        · simp only [Bool.false_eq_true, if_false] at hsp
          have hjs : (m.jerk_advance (dt - p)).speed = m0.spoly dt := by
            obtain ⟨hs1, -⟩ := jerk_advance_flow m0 m p (dt - p) hjf hv ha
            rw [show p + (dt - p) = dt by ring] at hs1
            exact hs1
          rw [hsp, hjs]
          have hfple : ((m0.spoly p : ℝ) : WithTop ℝ) ≤ m0.m_max_speed := by
            rw [← hv]
            exact hhi
          have hfplo : m0.m_min_speed ≤ m0.spoly p := by
            rw [← hv]
            exact hlo
          constructor
          · -- lower bound
            by_contra hlt
            push_neg at hlt
            rcases eq_or_lt_of_le hfplo with heq | hplt
            · rcases hval_or with hvmx | hvmn
              · -- head is a max hit: cross the min level inside (dt, τ)
                have hmxval : ((m0.spoly τ : ℝ) : WithTop ℝ) = m0.m_max_speed := by
                  rw [hvτ, hvmx]
                have hmnτ : m0.m_min_speed < m0.spoly τ :=
                  WithTop.coe_lt_coe.mp (by rw [hmxval]; exact hmm)
                obtain ⟨σ, hσ1, hσ2, hσv⟩ :=
                  spoly_cross_up m0 m0.m_min_speed dt τ hdtτ hlt hmnτ
                obtain ⟨h2, hmem2, ht2⟩ :=
                  hcomp σ (lt_of_le_of_lt hpd hσ1) (Or.inr hσv)
                have hhd := sorted_head_min hsort h2 hmem2
                rw [htime, ht2] at hhd
                have hτσ : τ ≤ σ := WithTop.coe_le_coe.mp hhd
                linarith
              · -- head is a min hit and the min was met: concave case
                have hminval : m0.spoly τ = m0.m_min_speed :=
                  WithTop.coe_eq_coe.mp (hvτ.trans hvmn)
                have hvm2 : ¬h.value = m.m_max_speed := by
                  rw [hvmn, hmaxf]
                  intro hcontra
                  rw [← hcontra] at hmm
                  exact lt_irrefl _ hmm
                rw [if_neg hvm2] at himp
                have hexc : m.speed ≤ m.m_min_speed := by
                  rw [hminf, hv, ← heq]
                obtain ⟨-, hnatl⟩ := himp hexc
                rw [if_neg hvm2] at hnatl
                rw [hjf] at hnatl
                have hge := spoly_concave_ge m0 m0.m_min_speed p τ dt hnatl
                  heq.symm hminval hpd hdtτ
                linarith
            · obtain ⟨σ, hσ1, hσ2, hσv⟩ :=
                spoly_cross_down m0 m0.m_min_speed p dt hpd hlt hplt
              obtain ⟨h2, hmem2, ht2⟩ := hcomp σ hσ1 (Or.inr hσv)
              have hhd := sorted_head_min hsort h2 hmem2
              rw [htime, ht2] at hhd
              have hτσ : τ ≤ σ := WithTop.coe_le_coe.mp hhd
              linarith
          · -- upper bound
            by_contra hgt
            push_neg at hgt
            obtain ⟨mxv, hmxv⟩ := WithTop.ne_top_iff_exists.mp (ne_top_of_lt hgt)
            have hgt' : mxv < m0.spoly dt :=
              WithTop.coe_lt_coe.mp (by rw [hmxv]; exact hgt)
            have hple : m0.spoly p ≤ mxv :=
              WithTop.coe_le_coe.mp (by rw [hmxv]; exact hfple)
            rcases eq_or_lt_of_le hple with heq | hplt
            · rcases hval_or with hvmx | hvmn
              · -- head is a max hit and the max was met: convex case
                have hτval : m0.spoly τ = mxv := by
                  have h1 : ((m0.spoly τ : ℝ) : WithTop ℝ) = (mxv : WithTop ℝ) := by
                    rw [hvτ, hvmx, hmxv]
                  exact WithTop.coe_eq_coe.mp h1
                have hvm2 : h.value = m.m_max_speed := by rw [hvmx, hmaxf]
                rw [if_pos hvm2] at himp
                have hexc : m.m_max_speed ≤ (m.speed : WithTop ℝ) := by
                  rw [hmaxf, hv, heq, hmxv]
                obtain ⟨-, hnatl⟩ := himp hexc
                rw [if_pos hvm2] at hnatl
                rw [hjf] at hnatl
                have hle := spoly_convex_le m0 mxv p τ dt hnatl heq hτval hpd hdtτ
                linarith
              · -- head is a min hit: cross the max level inside (dt, τ)
                have hminval : m0.spoly τ = m0.m_min_speed :=
                  WithTop.coe_eq_coe.mp (hvτ.trans hvmn)
                have hmnmx : m0.m_min_speed < mxv :=
                  WithTop.coe_lt_coe.mp (by rw [hmxv]; exact hmm)
                obtain ⟨σ, hσ1, hσ2, hσv⟩ :=
                  spoly_cross_down m0 mxv dt τ hdtτ
                    (by rw [hminval]; exact hmnmx) hgt'
                obtain ⟨h2, hmem2, ht2⟩ :=
                  hcomp σ (lt_of_le_of_lt hpd hσ1) (Or.inl (by rw [hσv, hmxv]))
                have hhd := sorted_head_min hsort h2 hmem2
                rw [htime, ht2] at hhd
                have hτσ : τ ≤ σ := WithTop.coe_le_coe.mp hhd
                linarith
            · obtain ⟨σ, hσ1, hσ2, hσv⟩ :=
                spoly_cross_up m0 mxv p dt hpd hplt hgt'
              obtain ⟨h2, hmem2, ht2⟩ := hcomp σ hσ1 (Or.inl (by rw [hσv, hmxv]))
              have hhd := sorted_head_min hsort h2 hmem2
              rw [htime, ht2] at hhd
              have hτσ : τ ≤ σ := WithTop.coe_le_coe.mp hhd
              linarith
      · -- inner sub-interval: advance to τ and recurse
        push_neg at hdtτ
        have hsorttail : List.Sorted (fun x y => x.time ≤ y.time) rest :=
          (List.sorted_cons.mp hsort).2
        have hframe := step_frame m (τ - p) h.value prev true
        have hstate : (step m (τ - p) h.value prev true).acceleration = m0.apoly τ ∧
            (step m (τ - p) h.value prev true).speed = m0.spoly τ := by
          rcases step_cases m (τ - p) h.value prev true with
            ⟨hsp, hac, hie⟩ | ⟨hsp, hac, -⟩
          · refine ⟨by rw [hac, ha, hjf]; unfold apoly; ring, ?_⟩
            rw [hsp]
            by_cases hvm : h.value = m.m_max_speed
            · rw [if_pos hvm] at hie
              have h1 : (m.speed : WithTop ℝ) = m0.m_max_speed :=
                le_antisymm hhi (by rw [← hmaxf]; exact hie)
              have h2 : ((m0.spoly τ : ℝ) : WithTop ℝ) = (m.speed : WithTop ℝ) := by
                rw [hvτ, hvm, hmaxf, h1]
              exact (WithTop.coe_eq_coe.mp h2).symm
            · rw [if_neg hvm] at hie
              have h1 : m.speed = m0.m_min_speed :=
                le_antisymm (by rw [← hminf]; exact hie) hlo
              have h2 : h.value = ((m0.m_min_speed : ℝ) : WithTop ℝ) := by
                rcases hval_or with hx | hx
                · exact absurd (hx.trans hmaxf.symm) hvm
                · exact hx
              have h3 : ((m0.spoly τ : ℝ) : WithTop ℝ) =
                  ((m0.m_min_speed : ℝ) : WithTop ℝ) := by rw [hvτ, h2]
              rw [h1]
              exact (WithTop.coe_eq_coe.mp h3).symm
          · refine ⟨by rw [hac, ha, hjf]; unfold apoly; ring, ?_⟩
            rw [if_pos rfl] at hsp
            rw [hsp, ← hvτ]
            rfl
        obtain ⟨haccτ, hspτ⟩ := hstate
        have hlo' : m0.m_min_speed ≤ (step m (τ - p) h.value prev true).speed := by
          rw [hspτ]
          rcases hval_or with hvmx | hvmn
          · have h1 : ((m0.spoly τ : ℝ) : WithTop ℝ) = m0.m_max_speed := by
              rw [hvτ, hvmx]
            have h2 : (m0.m_min_speed : WithTop ℝ) < ((m0.spoly τ : ℝ) : WithTop ℝ) := by
              rw [h1]
              exact hmm
            exact (WithTop.coe_lt_coe.mp h2).le
          · have h1 : m0.spoly τ = m0.m_min_speed :=
              WithTop.coe_eq_coe.mp (hvτ.trans hvmn)
            rw [h1]
        have hhi' : (((step m (τ - p) h.value prev true).speed : ℝ) : WithTop ℝ) ≤
            m0.m_max_speed := by
          rw [hspτ]
          rcases hval_or with hvmx | hvmn
          · rw [hvτ, hvmx]
          · have h1 : m0.spoly τ = m0.m_min_speed :=
              WithTop.coe_eq_coe.mp (hvτ.trans hvmn)
            rw [h1]
            exact hmm.le
        have hsound' : ∀ h2 ∈ rest,
            (h2.value = m0.m_max_speed ∨ h2.value = (m0.m_min_speed : WithTop ℝ)) ∧
            ∀ τ2 : ℝ, h2.time = (τ2 : WithTop ℝ) →
              τ ≤ τ2 ∧ ((m0.spoly τ2 : ℝ) : WithTop ℝ) = h2.value := by
          intro h2 hmem2
          obtain ⟨hval2, hfacts2⟩ := hsound h2 (List.mem_cons_of_mem h hmem2)
          refine ⟨hval2, fun τ2 ht2 => ?_⟩
          obtain ⟨-, hv2⟩ := hfacts2 τ2 ht2
          refine ⟨?_, hv2⟩
          have hle := (List.sorted_cons.mp hsort).1 h2 hmem2
          rw [htime, ht2] at hle
          exact WithTop.coe_le_coe.mp hle
        have hcomp' : ∀ σ : ℝ, τ < σ →
            (((m0.spoly σ : ℝ) : WithTop ℝ) = m0.m_max_speed ∨
              m0.spoly σ = m0.m_min_speed) →
            ∃ h2 ∈ rest, h2.time = (σ : WithTop ℝ) := by
          intro σ hτσ hcross
          obtain ⟨h2, hmem2, ht2⟩ := hcomp σ (lt_of_le_of_lt hpτ hτσ) hcross
          rcases List.mem_cons.mp hmem2 with heq2 | hmem2'
          · exfalso
            rw [heq2, htime] at ht2
            have := WithTop.coe_eq_coe.mp ht2
            linarith
          · exact ⟨h2, hmem2', ht2⟩
        exact ih hsorttail (step m (τ - p) h.value prev true) τ (some h.value)
          (hframe.1.trans hjf) (hframe.2.1.trans hminf) (hframe.2.2.trans hmaxf)
          hspτ haccτ (hp0.trans hpτ) hdtτ.le hlo' hhi' hsound' hcomp'

end SpeedLimitedMotion

namespace SpeedLimitedMotion

/-- Reducing `times_to_bound` at a finite bound. -/
theorem times_to_bound_coe (m : SpeedLimitedMotion) (v : ℝ) :
    m.times_to_bound ((v : ℝ) : WithTop ℝ) =
      (xfTime (Motion.time_to_speed MotionType.jerked m.toM v).1,
       xfTime (Motion.time_to_speed MotionType.jerked m.toM v).2) := rfl

/-- Every finite-time entry of the four-hit extremum array of `advance` is a
non-negative corridor-crossing time of the speed polynomial whose recorded
value is the speed there. -/
theorem advance_hits_sound (m : SpeedLimitedMotion)
    (hdeg : ¬(m.jerk = 0 ∧ m.acceleration = 0)) :
    ∀ h ∈ ([⟨(m.times_to_bound m.m_max_speed).1, m.m_max_speed⟩,
        ⟨(m.times_to_bound m.m_max_speed).2, m.m_max_speed⟩,
        ⟨(m.times_to_bound ((m.m_min_speed : ℝ) : WithTop ℝ)).1,
          ((m.m_min_speed : ℝ) : WithTop ℝ)⟩,
        ⟨(m.times_to_bound ((m.m_min_speed : ℝ) : WithTop ℝ)).2,
          ((m.m_min_speed : ℝ) : WithTop ℝ)⟩] : List ExtremumHit),
      (h.value = m.m_max_speed ∨ h.value = ((m.m_min_speed : ℝ) : WithTop ℝ)) ∧
      ∀ τ : ℝ, h.time = (τ : WithTop ℝ) →
        0 ≤ τ ∧ ((m.spoly τ : ℝ) : WithTop ℝ) = h.value := by
  have hdegv : ∀ v : ℝ,
      ¬(m.toM.jerk = 0 ∧ m.toM.acceleration = 0 ∧ m.toM.speed = v) :=
    fun v hc => hdeg ⟨hc.1, hc.2.1⟩
  intro h hmem
  simp only [List.mem_cons, List.not_mem_nil, or_false] at hmem
  rcases hmem with rfl | rfl | rfl | rfl
  · refine ⟨Or.inl rfl, fun τ ht => ?_⟩
    rcases hb : m.m_max_speed with _ | v
    · rw [hb] at ht
      exact absurd ht.symm WithTop.coe_ne_top
    · rw [hb] at ht
      have hfin := (xfTime_eq_coe _ τ).mp ht
      obtain ⟨hτ0, hroot, -⟩ :=
        (tts_jerked_master m.toM v (hdegv v)).1.2.2.1 τ hfin
      refine ⟨hτ0, ?_⟩
      rw [spoly_eq_speed_poly, hroot]
      rfl
  · refine ⟨Or.inl rfl, fun τ ht => ?_⟩
    rcases hb : m.m_max_speed with _ | v
    · rw [hb] at ht
      exact absurd ht.symm WithTop.coe_ne_top
    · rw [hb] at ht
      have hfin := (xfTime_eq_coe _ τ).mp ht
      obtain ⟨hτ0, hroot, -, -⟩ :=
        (tts_jerked_master m.toM v (hdegv v)).1.2.2.2.2.1 τ hfin
      refine ⟨hτ0, ?_⟩
      rw [spoly_eq_speed_poly, hroot]
      rfl
  · refine ⟨Or.inr rfl, fun τ ht => ?_⟩
    have hfin := (xfTime_eq_coe _ τ).mp ht
    obtain ⟨hτ0, hroot, -⟩ :=
      (tts_jerked_master m.toM m.m_min_speed (hdegv _)).1.2.2.1 τ hfin
    refine ⟨hτ0, ?_⟩
    rw [spoly_eq_speed_poly, hroot]
  · refine ⟨Or.inr rfl, fun τ ht => ?_⟩
    have hfin := (xfTime_eq_coe _ τ).mp ht
    obtain ⟨hτ0, hroot, -, -⟩ :=
      (tts_jerked_master m.toM m.m_min_speed (hdegv _)).1.2.2.2.2.1 τ hfin
    refine ⟨hτ0, ?_⟩
    rw [spoly_eq_speed_poly, hroot]

/-- Every non-negative corridor crossing of the speed polynomial appears among
the four extremum hits of `advance` with its exact time. -/
theorem advance_hits_complete (m : SpeedLimitedMotion)
    (hdeg : ¬(m.jerk = 0 ∧ m.acceleration = 0)) :
    ∀ σ : ℝ, 0 ≤ σ →
      (((m.spoly σ : ℝ) : WithTop ℝ) = m.m_max_speed ∨
        m.spoly σ = m.m_min_speed) →
      ∃ h ∈ ([⟨(m.times_to_bound m.m_max_speed).1, m.m_max_speed⟩,
          ⟨(m.times_to_bound m.m_max_speed).2, m.m_max_speed⟩,
          ⟨(m.times_to_bound ((m.m_min_speed : ℝ) : WithTop ℝ)).1,
            ((m.m_min_speed : ℝ) : WithTop ℝ)⟩,
          ⟨(m.times_to_bound ((m.m_min_speed : ℝ) : WithTop ℝ)).2,
            ((m.m_min_speed : ℝ) : WithTop ℝ)⟩] : List ExtremumHit),
        h.time = (σ : WithTop ℝ) := by
  have hdegv : ∀ v : ℝ,
      ¬(m.toM.jerk = 0 ∧ m.toM.acceleration = 0 ∧ m.toM.speed = v) :=
    fun v hc => hdeg ⟨hc.1, hc.2.1⟩
  intro σ hσ hcross
  rcases hcross with hcx | hcn
  · have hroot : Motion.speed_poly MotionType.jerked m.toM σ = m.spoly σ :=
      (spoly_eq_speed_poly m σ).symm
    rcases (tts_jerked_master m.toM (m.spoly σ) (hdegv _)).2 σ hσ hroot with h1 | h1
    · refine ⟨⟨(m.times_to_bound m.m_max_speed).1, m.m_max_speed⟩,
        List.mem_cons_self _ _, ?_⟩
      show (m.times_to_bound m.m_max_speed).1 = (σ : WithTop ℝ)
      rw [← hcx, times_to_bound_coe]
      exact (xfTime_eq_coe _ σ).mpr h1
    · refine ⟨⟨(m.times_to_bound m.m_max_speed).2, m.m_max_speed⟩,
        List.mem_cons_of_mem _ (List.mem_cons_self _ _), ?_⟩
      show (m.times_to_bound m.m_max_speed).2 = (σ : WithTop ℝ)
      rw [← hcx, times_to_bound_coe]
      exact (xfTime_eq_coe _ σ).mpr h1
  · have hroot : Motion.speed_poly MotionType.jerked m.toM σ = m.m_min_speed :=
      (spoly_eq_speed_poly m σ).symm.trans hcn
    rcases (tts_jerked_master m.toM m.m_min_speed (hdegv _)).2 σ hσ hroot with h1 | h1
    · refine ⟨⟨(m.times_to_bound ((m.m_min_speed : ℝ) : WithTop ℝ)).1,
          ((m.m_min_speed : ℝ) : WithTop ℝ)⟩,
        List.mem_cons_of_mem _ (List.mem_cons_of_mem _ (List.mem_cons_self _ _)), ?_⟩
      show (m.times_to_bound ((m.m_min_speed : ℝ) : WithTop ℝ)).1 = (σ : WithTop ℝ)
      rw [times_to_bound_coe]
      exact (xfTime_eq_coe _ σ).mpr h1
    · refine ⟨⟨(m.times_to_bound ((m.m_min_speed : ℝ) : WithTop ℝ)).2,
          ((m.m_min_speed : ℝ) : WithTop ℝ)⟩,
        List.mem_cons_of_mem _ (List.mem_cons_of_mem _
          (List.mem_cons_of_mem _ (List.mem_cons_self _ _))), ?_⟩
      show (m.times_to_bound ((m.m_min_speed : ℝ) : WithTop ℝ)).2 = (σ : WithTop ℝ)
      rw [times_to_bound_coe]
      exact (xfTime_eq_coe _ σ).mpr h1

end SpeedLimitedMotion

namespace SpeedLimitedMotion

/-- The boundary-hit times of `cex2SLM` for the common bound value 1: the
quadratic `τ² − 2τ = 0` has roots 0 and 2, both non-negative. -/
theorem cex2SLM_tts :
    Motion.time_to_speed MotionType.jerked cex2SLM.toM 1 = (Xf.fin 0, Xf.fin 2) := by
  have h4 : Real.sqrt 4 = 2 := by
    rw [show (4 : ℝ) = 2 ^ 2 by norm_num, Real.sqrt_sq (by norm_num : (0 : ℝ) ≤ 2)]
  have hq : quad_equation 1 (-2) 0 = (Xf.fin 2, Xf.fin 0) := by
    rw [quad_equation]
    norm_num [h4]
  rw [time_to_speed_jerked_eq]
  have hargs : quad_equation (cex2SLM.toM.jerk / 2) cex2SLM.toM.acceleration
      (cex2SLM.toM.speed - 1) = quad_equation 1 (-2) 0 := by
    norm_num [cex2SLM, toM]
  rw [hargs, hq]
  norm_num

/-- Unfolding `walk` on an explicit head hit with finite time. -/
theorem walk_cons_mk (dt : ℝ) (m : SpeedLimitedMotion) (p : ℝ)
    (prev : Option (WithTop ℝ)) (τv val : WithTop ℝ) (rest : List ExtremumHit)
    (τ : ℝ) (ht : τv = (τ : WithTop ℝ)) :
    walk dt m p prev (⟨τv, val⟩ :: rest) =
      if dt ≤ τ then step m (dt - p) val prev false
      else walk dt (step m (τ - p) val prev true) τ (some val) rest := by
  subst ht
  rw [walk]

/-- Concrete evaluation of the bounded integrator on the pinched corridor:
both hits at time 0 are consumed (the second with `will_reduce` true), and the
final sub-interval to `dt = 1` runs the full polynomial because the previous
entry carries the same bound value, landing at speed 0. -/
theorem cex2SLM_advance :
    cex2SLM.advance 1 = ⟨1 / 3, 0, 0, 2, ((1 : ℝ) : WithTop ℝ), 1⟩ := by
  have huntop : ∀ x d : ℝ, ((x : ℝ) : WithTop ℝ).untop' d = x := fun x d => rfl
  have h1 : cex2SLM.times_to_bound cex2SLM.m_max_speed =
      (((0 : ℝ) : WithTop ℝ), ((2 : ℝ) : WithTop ℝ)) := by
    show cex2SLM.times_to_bound (((1 : ℝ)) : WithTop ℝ) = _
    rw [times_to_bound_coe, cex2SLM_tts]
    rfl
  have h2 : cex2SLM.times_to_bound ((cex2SLM.m_min_speed : ℝ) : WithTop ℝ) =
      (((0 : ℝ) : WithTop ℝ), ((2 : ℝ) : WithTop ℝ)) := by
    show cex2SLM.times_to_bound (((1 : ℝ)) : WithTop ℝ) = _
    rw [times_to_bound_coe, cex2SLM_tts]
    rfl
  rw [SpeedLimitedMotion.advance, h1, h2]
  have hle20 : ¬(((2 : ℝ) : WithTop ℝ) ≤ ((0 : ℝ) : WithTop ℝ)) := by
    rw [WithTop.coe_le_coe]
    norm_num
  have hle02 : (((0 : ℝ) : WithTop ℝ) ≤ ((2 : ℝ) : WithTop ℝ)) := by
    rw [WithTop.coe_le_coe]
    norm_num
  have hle22 : (((2 : ℝ) : WithTop ℝ) ≤ ((2 : ℝ) : WithTop ℝ)) := le_refl _
  have hle00 : (((0 : ℝ) : WithTop ℝ) ≤ ((0 : ℝ) : WithTop ℝ)) := le_refl _
  have hsorted : ([⟨((0 : ℝ) : WithTop ℝ), cex2SLM.m_max_speed⟩,
      ⟨((2 : ℝ) : WithTop ℝ), cex2SLM.m_max_speed⟩,
      ⟨((0 : ℝ) : WithTop ℝ), ((cex2SLM.m_min_speed : ℝ) : WithTop ℝ)⟩,
      ⟨((2 : ℝ) : WithTop ℝ), ((cex2SLM.m_min_speed : ℝ) : WithTop ℝ)⟩] :
        List ExtremumHit).insertionSort (fun x y => x.time ≤ y.time) =
      [⟨((0 : ℝ) : WithTop ℝ), cex2SLM.m_max_speed⟩,
       ⟨((0 : ℝ) : WithTop ℝ), ((cex2SLM.m_min_speed : ℝ) : WithTop ℝ)⟩,
       ⟨((2 : ℝ) : WithTop ℝ), cex2SLM.m_max_speed⟩,
       ⟨((2 : ℝ) : WithTop ℝ), ((cex2SLM.m_min_speed : ℝ) : WithTop ℝ)⟩] := by
    simp only [List.insertionSort, List.orderedInsert, hle20, hle02, hle22, hle00,
      if_true, if_false]
  rw [hsorted]
  have hstep1 : step cex2SLM (0 - 0) cex2SLM.m_max_speed none true = cex2SLM := by
    simp only [step, if_true]
    rw [if_pos (show cex2SLM.m_max_speed ≤ (cex2SLM.speed : WithTop ℝ) ∧
        ¬((none : Option (WithTop ℝ)) = some cex2SLM.m_max_speed ∧ 0 < cex2SLM.jerk)
      from ⟨le_of_eq rfl, fun hc => Option.noConfusion hc.1⟩)]
    simp only [uniform_advance]
    norm_num [cex2SLM]
  have hstep2 : step cex2SLM (0 - 0) ((cex2SLM.m_min_speed : ℝ) : WithTop ℝ)
      (some cex2SLM.m_max_speed) true = cex2SLM := by
    have hnC : ¬((if ((cex2SLM.m_min_speed : ℝ) : WithTop ℝ) = cex2SLM.m_max_speed then
          cex2SLM.m_max_speed ≤ (cex2SLM.speed : WithTop ℝ)
        else cex2SLM.speed ≤ cex2SLM.m_min_speed) ∧
        ¬(some cex2SLM.m_max_speed = some (((cex2SLM.m_min_speed : ℝ) : WithTop ℝ)) ∧
          (if ((cex2SLM.m_min_speed : ℝ) : WithTop ℝ) = cex2SLM.m_max_speed then
            0 < cex2SLM.jerk else cex2SLM.jerk < 0))) := by
      rintro ⟨-, hn⟩
      refine hn ⟨rfl, ?_⟩
      rw [if_pos (show ((cex2SLM.m_min_speed : ℝ) : WithTop ℝ) = cex2SLM.m_max_speed
        from rfl)]
      norm_num [cex2SLM]
    simp only [step, if_true]
    rw [if_neg hnC]
    rw [huntop]
    simp only [jerk_advance]
    norm_num [cex2SLM]
  have hstep3 : step cex2SLM (1 - 0) cex2SLM.m_max_speed
      (some (((cex2SLM.m_min_speed : ℝ) : WithTop ℝ))) false =
      ⟨1 / 3, 0, 0, 2, ((1 : ℝ) : WithTop ℝ), 1⟩ := by
    have hnC : ¬(cex2SLM.m_max_speed ≤ (cex2SLM.speed : WithTop ℝ) ∧
        ¬(some (((cex2SLM.m_min_speed : ℝ) : WithTop ℝ)) = some cex2SLM.m_max_speed ∧
          0 < cex2SLM.jerk)) := by
      rintro ⟨-, hn⟩
      refine hn ⟨rfl, ?_⟩
      norm_num [cex2SLM]
    simp only [step, if_true, if_false]
    rw [if_neg hnC]
    simp only [jerk_advance]
    norm_num [cex2SLM]
  rw [walk_cons_mk 1 cex2SLM 0 none ((0 : ℝ) : WithTop ℝ) cex2SLM.m_max_speed
    [⟨((0 : ℝ) : WithTop ℝ), ((cex2SLM.m_min_speed : ℝ) : WithTop ℝ)⟩,
     ⟨((2 : ℝ) : WithTop ℝ), cex2SLM.m_max_speed⟩,
     ⟨((2 : ℝ) : WithTop ℝ), ((cex2SLM.m_min_speed : ℝ) : WithTop ℝ)⟩] 0 rfl]
  rw [if_neg (by norm_num : ¬(1 : ℝ) ≤ 0)]
  rw [hstep1]
  rw [walk_cons_mk 1 cex2SLM 0 (some cex2SLM.m_max_speed) ((0 : ℝ) : WithTop ℝ)
    ((cex2SLM.m_min_speed : ℝ) : WithTop ℝ)
    [⟨((2 : ℝ) : WithTop ℝ), cex2SLM.m_max_speed⟩,
     ⟨((2 : ℝ) : WithTop ℝ), ((cex2SLM.m_min_speed : ℝ) : WithTop ℝ)⟩] 0 rfl]
  rw [if_neg (by norm_num : ¬(1 : ℝ) ≤ 0)]
  rw [hstep2]
  rw [walk_cons_mk 1 cex2SLM 0 (some (((cex2SLM.m_min_speed : ℝ) : WithTop ℝ)))
    ((2 : ℝ) : WithTop ℝ) cex2SLM.m_max_speed
    [⟨((2 : ℝ) : WithTop ℝ), ((cex2SLM.m_min_speed : ℝ) : WithTop ℝ)⟩] 2 rfl]
  rw [if_pos (by norm_num : (1 : ℝ) ≤ 2)]
  rw [hstep3]

end SpeedLimitedMotion

namespace SpeedLimitedMotion

/-- Counterexample for C2 as stated (no strictness assumption on the
corridor): in `cex2SLM` the corridor is pinched to the single value
`m_min_speed = m_max_speed = 1` and the starting speed 1 lies inside it, yet
`advance(1)` leaves the corridor: both time-0 boundary hits mark the bound as
previously visited, so the final sub-interval sets `will_reduce` and runs the
full polynomial `1 − 2τ + τ²` down to speed 0 < 1. -/
theorem speed_limited_advance_bounds_cex :
    cex2SLM.m_min_speed ≤ cex2SLM.speed ∧
    (cex2SLM.speed : WithTop ℝ) ≤ cex2SLM.m_max_speed ∧
    (0 : ℝ) ≤ 1 ∧
    (cex2SLM.advance 1).speed = 0 ∧
    (cex2SLM.advance 1).speed < cex2SLM.m_min_speed := by
  refine ⟨le_of_eq rfl, le_of_eq rfl, by norm_num, ?_, ?_⟩
  · rw [cex2SLM_advance]
  · rw [cex2SLM_advance]
    norm_num [cex2SLM]

end SpeedLimitedMotion

/-- C2 (amended: the corridor must be strict, `m_min_speed < m_max_speed`):
`SpeedLimitedMotion::advance` keeps the speed within
`[m_min_speed, m_max_speed]` for any non-negative time step whenever the
current speed lies within the corridor.  For a pinched corridor
(`min = max`) the invariant fails (`speed_limited_advance_bounds_cex`). -/
theorem speed_limited_advance_bounds (m : SpeedLimitedMotion) (dt : ℝ)
    (hmm : (m.m_min_speed : WithTop ℝ) < m.m_max_speed)
    (hdt : 0 ≤ dt)
    (hlo : m.m_min_speed ≤ m.speed)
    (hhi : (m.speed : WithTop ℝ) ≤ m.m_max_speed) :
    m.m_min_speed ≤ (m.advance dt).speed ∧
      ((m.advance dt).speed : WithTop ℝ) ≤ m.m_max_speed := by
  simp only [SpeedLimitedMotion.advance]
  by_cases hdeg : m.jerk = 0 ∧ m.acceleration = 0
  · have hmaxT : m.times_to_bound m.m_max_speed = (⊤, ⊤) := by
      rcases hb : m.m_max_speed with _ | v
      · rfl
      · exact (SpeedLimitedMotion.times_to_bound_coe m v).trans
          (by rw [SpeedLimitedMotion.tts_degenerate m.toM v hdeg.1 hdeg.2]; rfl)
    have hminT : m.times_to_bound ((m.m_min_speed : ℝ) : WithTop ℝ) = (⊤, ⊤) :=
      (SpeedLimitedMotion.times_to_bound_coe m _).trans
        (by rw [SpeedLimitedMotion.tts_degenerate m.toM m.m_min_speed hdeg.1 hdeg.2]; rfl)
    have hall : ∀ h2 ∈ List.insertionSort
        (fun x y : SpeedLimitedMotion.ExtremumHit => x.time ≤ y.time)
        [⟨(m.times_to_bound m.m_max_speed).1, m.m_max_speed⟩,
         ⟨(m.times_to_bound m.m_max_speed).2, m.m_max_speed⟩,
         ⟨(m.times_to_bound ((m.m_min_speed : ℝ) : WithTop ℝ)).1,
           ((m.m_min_speed : ℝ) : WithTop ℝ)⟩,
         ⟨(m.times_to_bound ((m.m_min_speed : ℝ) : WithTop ℝ)).2,
           ((m.m_min_speed : ℝ) : WithTop ℝ)⟩], h2.time = ⊤ := by
      intro h2 hmem
      rw [(List.perm_insertionSort _ _).mem_iff] at hmem
      simp only [List.mem_cons, List.not_mem_nil, or_false] at hmem
      rcases hmem with rfl | rfl | rfl | rfl
      · show (m.times_to_bound m.m_max_speed).1 = ⊤
        rw [hmaxT]
      · show (m.times_to_bound m.m_max_speed).2 = ⊤
        rw [hmaxT]
      · show (m.times_to_bound ((m.m_min_speed : ℝ) : WithTop ℝ)).1 = ⊤
        rw [hminT]
      · show (m.times_to_bound ((m.m_min_speed : ℝ) : WithTop ℝ)).2 = ⊤
        rw [hminT]
    constructor
    · rw [SpeedLimitedMotion.walk_top dt _ m 0 none hall]
      exact hlo
    · rw [SpeedLimitedMotion.walk_top dt _ m 0 none hall]
      exact hhi
  · refine SpeedLimitedMotion.walk_bounds m dt hmm _
      (List.sorted_insertionSort _ _) m 0 none rfl rfl rfl
      (SpeedLimitedMotion.spoly_zero m).symm (SpeedLimitedMotion.apoly_zero m).symm
      le_rfl hdt hlo hhi ?_ ?_
    · intro h2 hmem
      rw [(List.perm_insertionSort _ _).mem_iff] at hmem
      exact SpeedLimitedMotion.advance_hits_sound m hdeg h2 hmem
    · intro σ hσ hcross
      obtain ⟨h2, hmem, ht2⟩ :=
        SpeedLimitedMotion.advance_hits_complete m hdeg σ hσ.le hcross
      exact ⟨h2, (List.perm_insertionSort _ _).mem_iff.mpr hmem, ht2⟩

/-- Witness: the corridor `[0, 10]` of `cexSLM` is strict and contains the
starting speed 1, and `advance 1` stays inside it. -/
theorem speed_limited_advance_bounds_witness :
    (((cexSLM.m_min_speed : ℝ) : WithTop ℝ) < cexSLM.m_max_speed ∧
      (0 : ℝ) ≤ 1 ∧ cexSLM.m_min_speed ≤ cexSLM.speed ∧
      ((cexSLM.speed : ℝ) : WithTop ℝ) ≤ cexSLM.m_max_speed) ∧
    (cexSLM.m_min_speed ≤ (cexSLM.advance 1).speed ∧
      (((cexSLM.advance 1).speed : ℝ) : WithTop ℝ) ≤ cexSLM.m_max_speed) := by
  have hmm : ((cexSLM.m_min_speed : ℝ) : WithTop ℝ) < cexSLM.m_max_speed := by
    show ((0 : ℝ) : WithTop ℝ) < ((10 : ℝ) : WithTop ℝ)
    rw [WithTop.coe_lt_coe]
    norm_num
  have hdt : (0 : ℝ) ≤ 1 := by norm_num
  have hlo : cexSLM.m_min_speed ≤ cexSLM.speed := by
    show (0 : ℝ) ≤ 1
    norm_num
  have hhi : ((cexSLM.speed : ℝ) : WithTop ℝ) ≤ cexSLM.m_max_speed := by
    show ((1 : ℝ) : WithTop ℝ) ≤ ((10 : ℝ) : WithTop ℝ)
    rw [WithTop.coe_le_coe]
    norm_num
  exact ⟨⟨hmm, hdt, hlo, hhi⟩,
    speed_limited_advance_bounds cexSLM 1 hmm hdt hlo hhi⟩
